import Mathlib

/-!
# Verification of the tarx archive codec

A shallow embedding of the Go sources of the `tarx` repository
(`tar.go` package `archive` — the canonical variant, `util.go`, and the
zip variant) together with proofs and refutations of the specification
claims about filter matching, compression sniffing, extraction policy,
append handling and error-path cleanup.

Strings are modelled by Lean `String`; path segments are `List Char`
(one segment = the characters between two `/` separators, exactly as Go's
`strings.Split(s, "/")` produces them).  Machine integers that matter
(byte values, seek offsets) are `Nat`/`Int`.
-/

namespace Tarx

/-- A path segment: the characters between two `/` separators. -/
abbrev Seg := List Char

/-- The `".."` segment. -/
def dotdot : Seg := ['.', '.']

/-- The `"."` segment. -/
def dotSeg : Seg := ['.']

/-- Go `strings.Split(s, "/")` on the character list: splits at every `/`;
splitting the empty list yields one empty segment, as in Go. -/
def splitCh : List Char → List Seg
  | [] => [[]]
  | c :: rest =>
    if c = '/' then [] :: splitCh rest
    else
      match splitCh rest with
      | [] => [[c]]
      | g :: gs => (c :: g) :: gs

/-- Does the string begin with the path separator (an absolute path)? -/
def rootedChars : List Char → Bool
  | c :: _ => c = '/'
  | [] => false

/-- The rooted test lifted to `String`. -/
def rootedB (s : String) : Bool := rootedChars s.data

/-- One step of the `path.Clean` segment algorithm (Go `path.Clean`,
used by `filepath.Clean` on linux): empty and `.` segments are dropped;
`..` pops a normal segment, stacks on a leading `..`, and is dropped at
the root of an absolute path; every other segment is pushed.  The stack
head is the most recently pushed segment. -/
def pushSeg (rooted : Bool) (st : List Seg) (seg : Seg) : List Seg :=
  if seg = [] ∨ seg = dotSeg then st
  else if seg = dotdot then
    match st with
    | [] => if rooted then [] else [dotdot]
    | top :: rest => if top = dotdot then seg :: top :: rest else rest
  else seg :: st

/-- The cleaned segment stack of a character list (head = last segment). -/
def cleanStackC (rooted : Bool) (l : List Char) : List Seg :=
  (splitCh l).foldl (pushSeg rooted) []

/-- Parse and clean a path: its rootedness and its cleaned segments in
path order.  This is the segment-level content of Go `path.Clean`. -/
def cleanParsed (s : String) : Bool × List Seg :=
  (rootedB s, (cleanStackC (rootedB s) s.data).reverse)

/-- Interleave segments with `/`. -/
def interSegs : List Seg → List Char
  | [] => []
  | [s] => s
  | s :: rest => s ++ '/' :: interSegs rest

/-- Render a parsed path back to a string, as Go `path.Clean` does:
an absolute path keeps its leading `/`; an empty relative path is `"."`. -/
def renderP (rooted : Bool) (segs : List Seg) : String :=
  if rooted then String.mk ('/' :: interSegs segs)
  else if segs = [] then "."
  else String.mk (interSegs segs)

/-- Go `path.Clean` (= `filepath.Clean` on linux) as a string function. -/
def pathCleanStr (s : String) : String :=
  renderP (cleanParsed s).1 (cleanParsed s).2

/-- Go `strings.Split(s, "/")` (`prepareFilters` splits on
`os.PathSeparator`, which is `/` on the platform of this repository). -/
def goSplitStr (s : String) : List String :=
  (splitCh s.data).map String.mk

/-- From `util.go`, `prepareFilters`: each filter string is split into its
segment list (the `nil` normalisation only matters in Go). -/
def prepareFilters (filters : List String) : List (List String) :=
  filters.map goSplitStr

/-- The inner loop of `util.go` `optimizedMatches`: compare the two
segment lists element by element up to the length of the shorter one;
report agreement when the shorter list is exhausted. -/
def agreeUpTo : List String → List String → Bool
  | _, [] => true
  | [], _ => true
  | x :: xs, y :: ys => x = y && agreeUpTo xs ys

/-- From `util.go`, `optimizedMatches`: an empty filter list matches every
path; otherwise some filter must agree with the path segment-by-segment
up to the shorter length. -/
def optimizedMatches (path : String) (filters : List (List String)) : Bool :=
  if filters.isEmpty then true
  else filters.any (fun f => agreeUpTo (goSplitStr path) f)

/-- Drop the common leading segments of two segment lists (the element
positioning loop of Go `filepath.Rel`). -/
def dropCommon : List Seg → List Seg → List Seg × List Seg
  | a :: as, b :: bs => if a = b then dropCommon as bs else (a :: as, b :: bs)
  | as, bs => (as, bs)

/-- Go `filepath.Rel(base, targ)` on linux (no volumes): clean both
paths; equal cleans give `"."`; mixed absolute/relative is an error
(`none`); a remaining `..` base segment after the common part is an
error; otherwise one `..` per remaining base segment followed by the
remaining target segments. -/
def filepathRel (base targ : String) : Option String :=
  let br := (cleanParsed base).1
  let tr := (cleanParsed targ).1
  let bs := (cleanParsed base).2
  let ts := (cleanParsed targ).2
  if br = tr ∧ bs = ts then some "."
  else if br ≠ tr then none
  else
    match dropCommon bs ts with
    | (b0 :: bRest, tRem) =>
      if b0 = dotdot then none
      else some (renderP false (List.replicate (b0 :: bRest).length dotdot ++ tRem))
    | ([], tRem) => some (renderP false tRem)

/-- Go `strings.HasPrefix(s, pre)`. -/
def goHasPfx (s pre : String) : Bool :=
  pre.data.isPrefixOf s.data

/-- Go `path.Join(a, b)`: non-empty elements joined with `/`, then
cleaned; all-empty input gives the empty string. -/
def pathJoin (a b : String) : String :=
  if a = "" ∧ b = "" then ""
  else if a = "" then pathCleanStr b
  else if b = "" then pathCleanStr a
  else pathCleanStr (a ++ "/" ++ b)

/-- Go `path.Base` (= `filepath.Base` on linux): `"."` for the empty
string; otherwise strip trailing slashes, take everything after the last
slash, and answer `"/"` when nothing is left. -/
def pathBaseStr (s : String) : String :=
  if s.data = [] then "."
  else
    let l1 := (s.data.reverse.dropWhile (fun c => c = '/')).reverse
    let last := (l1.reverse.takeWhile (fun c => c ≠ '/')).reverse
    if last = [] then "/" else String.mk last

/-! ## Errors, compression kinds and archive entries -/

/-- The error values the embedded operations can surface.  `eof` stands
for Go `io.EOF`, `notExist` for `os.ErrNotExist`, `ioErr` for any other
propagated I/O error. -/
inductive GoError
  | eof
  | notExist
  | appendNotSupported
  | bzip2NotSupported
  | unsupportedType (flag : Nat)
  | eexist
  | eisdir
  | seekFail
  | ioErr (code : Nat)
deriving DecidableEq, Repr

/-- The `Compression` enumeration of `tar.go`. -/
inductive Compression
  | uncompressed
  | gzip
  | bzip2
deriving DecidableEq, Repr

/-- The tar header type flags the code distinguishes
(`tar.TypeReg`, `tar.TypeRegA`, `tar.TypeDir`, `tar.TypeSymlink`,
and everything else). -/
inductive TypeFlag
  | reg
  | regA
  | dir
  | symlink
  | other (b : Nat)
deriving DecidableEq, Repr

/-- A tar entry: the header fields the code reads plus the content
bytes that follow a regular-file header. -/
structure TarEntry where
  name : String
  typeflag : TypeFlag
  mode : Nat
  content : List Nat
  linkname : String
deriving DecidableEq, Repr

/-- Is the flag one of the two regular-file flags? -/
def isRegFlag : TypeFlag → Bool
  | .reg => true
  | .regA => true
  | _ => false

/-! ## Compression sniffer (`tar.go` `detectCompression`)

The underlying file read is `os.File.Read` on a regular file at offset
zero with a 4-byte buffer: at end of file with a non-empty buffer it
returns `(0, io.EOF)`; otherwise it fills the buffer with
`min 4 (length)` bytes (the rest of the `make`-allocated buffer stays
zero) and returns no error.  The `Seek(0, SEEK_SET)` on an in-memory
file cannot fail.  Both magic prefixes are tested; they differ in their
first byte, so the Go map iteration order is irrelevant, and
`len(source) < len(m)` is always false because `source` has length 4. -/

/-- The gzip magic prefix `{0x1F, 0x8B, 0x08}`. -/
def gzipMagic : List Nat := [0x1F, 0x8B, 0x08]

/-- The bzip2 magic prefix `{0x42, 0x5A, 0x68}`. -/
def bzip2Magic : List Nat := [0x42, 0x5A, 0x68]

/-- From `tar.go`, `detectCompression`, as a function of the file contents. -/
def detectCompression (contents : List Nat) : Except GoError Compression :=
  if contents.isEmpty then .error .eof
  else
    let source := contents.take 4 ++ List.replicate (4 - min 4 contents.length) 0
    if source.take 3 = bzip2Magic then .ok .bzip2
    else if source.take 3 = gzipMagic then .ok .gzip
    else .ok .uncompressed

/-! ## Filesystem model

The filesystem is an association list from resolved paths to nodes.  A
resolved path is the rootedness flag plus the cleaned segment list —
the operating system resolves the path strings the code hands to the
syscalls, and all those strings are outputs of `path.Join`/`path.Clean`,
so cleaned-path keying is the faithful picture.  Parent directories are
not tracked (the code under scrutiny either creates them with `MkdirAll`
or relies on them existing). -/

/-- A resolved filesystem path: rooted flag and cleaned segments. -/
abbrev PathP := Bool × List Seg

/-- Parse a path string to its resolved form. -/
def parsePath (s : String) : PathP := cleanParsed s

/-- A filesystem node: directory, regular file (mode and content), or
symbolic link. -/
inductive FsNode
  | dir
  | file (mode : Nat) (content : List Nat)
  | symlink (target : String)
deriving DecidableEq, Repr

/-- The filesystem: an association list, first binding wins. -/
abbrev Fs := List (PathP × FsNode)

/-- Look up a path (`os.Lstat`): `none` models `os.IsNotExist`. -/
def lookupFs (fs : Fs) (p : PathP) : Option FsNode :=
  (fs.find? (fun b => b.1 = p)).map (fun b => b.2)

/-- Remove a path (`os.Remove` of an existing path). -/
def removeFs (fs : Fs) (p : PathP) : Fs :=
  fs.filter (fun b => b.1 ≠ p)

/-- Bind a path to a node, replacing any previous binding. -/
def setFs (fs : Fs) (p : PathP) (n : FsNode) : Fs :=
  (p, n) :: removeFs fs p

/-- Does a non-directory node exist at the path?  This is the
`err == nil && !fileInfo.IsDir()` test of `extractTarFile`. -/
def existsNonDir : Option FsNode → Bool
  | some .dir => false
  | some _ => true
  | none => false

/-! ## Extraction engine (`tar.go` `extractTarFile`, `UnTar`) -/

/-- Modelled from the spec: `createFile` is called by `extractTarFile`
and `extractZipFile` but its definition is not among the source files;
per §4.5 it creates the regular file with the entry's permission bits
and copies the content stream verbatim (`os.Create` fails with `EISDIR`
when a directory occupies the path). -/
def createFile (fs : Fs) (p : PathP) (mode : Nat) (content : List Nat) :
    Except GoError Fs :=
  match lookupFs fs p with
  | some .dir => .error .eisdir
  | _ => .ok (setFs fs p (.file mode content))

/-- The materialisation switch of `extractTarFile` (`tar.go` 711-726):
directories are `os.Mkdir` with `IsExist` ignored, regular files go
through `createFile`, symlinks through `os.Symlink` (which fails when
the path still exists), anything else is the unhandled-header error. -/
def matTar (p : PathP) (hdr : TarEntry) (fs : Fs) : Except GoError Fs :=
  match hdr.typeflag with
  | .dir =>
    match lookupFs fs p with
    | some _ => .ok fs
    | none => .ok (setFs fs p .dir)
  | .reg => createFile fs p hdr.mode hdr.content
  | .regA => createFile fs p hdr.mode hdr.content
  | .symlink =>
    match lookupFs fs p with
    | some _ => .error .eexist
    | none => .ok (setFs fs p (.symlink hdr.linkname))
  | .other b => .error (.unsupportedType b)

/-- From `tar.go`, `extractTarFile` (688-729): if a non-directory exists at
the target path it is left alone under `noOverride` (per-entry skip) and
removed otherwise; then the entry is materialised by kind. -/
def extractTarFile (p : PathP) (hdr : TarEntry) (noOverride : Bool)
    (fs : Fs) : Except GoError Fs :=
  if existsNonDir (lookupFs fs p) then
    if noOverride then .ok fs
    else matTar p hdr (removeFs fs p)
  else matTar p hdr fs

/-- The `UnTarOptions` of `tar.go`. -/
structure UnTarOptions where
  flatDir : Bool
  filters : List String
  noOverride : Bool
deriving Repr

/-- The base name an entry extracts to under `FlatDir`
(`filepath.Base(filepath.Clean(header.Name))`). -/
def flatName (e : TarEntry) : String :=
  pathBaseStr (pathCleanStr e.name)

/-- The filesystem path an entry extracts to in `UnTar` (588-590):
the cleaned entry name — reduced to its base name under `FlatDir` —
joined under the target directory. -/
def unTarTarget (targetDir : String) (opts : UnTarOptions) (e : TarEntry) :
    PathP :=
  parsePath (pathJoin targetDir
    (if opts.flatDir then pathBaseStr (pathCleanStr e.name)
     else pathCleanStr e.name))

/-- The entry loop of `tar.go` `UnTar` (562-595): clean the entry name,
apply the filters, skip directories and flatten names under `FlatDir`,
join with the target directory and extract; the first error stops the
loop, leaving the files extracted so far. -/
def unTarLoop (targetDir : String) (opts : UnTarOptions)
    (filters : List (List String)) :
    List TarEntry → Fs → Fs × Option GoError
  | [], fs => (fs, none)
  | e :: rest, fs =>
    if ¬ optimizedMatches (pathCleanStr e.name) filters then
      unTarLoop targetDir opts filters rest fs
    else if opts.flatDir ∧ e.typeflag = .dir then
      unTarLoop targetDir opts filters rest fs
    else
      match extractTarFile (unTarTarget targetDir opts e) e opts.noOverride fs with
      | .error err => (fs, some err)
      | .ok fs2 => unTarLoop targetDir opts filters rest fs2

/-- Go `os.MkdirAll(targetDir, ...)`: succeeds silently on an existing
directory, fails when a non-directory occupies the path, creates the
directory otherwise (parent creation is outside this flat model). -/
def mkdirAllM (fs : Fs) (p : PathP) : Except GoError Fs :=
  match lookupFs fs p with
  | some .dir => .ok fs
  | some _ => .error .eexist
  | none => .ok (setFs fs p .dir)

/-- From `tar.go`, `UnTar` (543-596) given the decoded entry sequence of the
archive: ensure the target directory, then run the entry loop. -/
def unTar (entries : List TarEntry) (targetDir : String)
    (opts : UnTarOptions) (fs : Fs) : Fs × Option GoError :=
  match mkdirAllM fs (parsePath targetDir) with
  | .error e => (fs, some e)
  | .ok fs1 => unTarLoop targetDir opts (prepareFilters opts.filters) entries fs1

/-! ## Single-entry read (`tar.go` `ReadTar`) -/

/-- The scan loop of `ReadTar` (520-539): stop at the first entry whose
cleaned name equals the cleaned requested name; regular files come back
with their content stream, anything else with no stream and no error;
`io.EOF` from the iterator becomes `os.ErrNotExist`. -/
def readTarLoop (nm : String) :
    List TarEntry → Except GoError (TarEntry × Option (List Nat))
  | [] => .error .notExist
  | e :: rest =>
    if nm = pathCleanStr e.name then
      if isRegFlag e.typeflag then .ok (e, some e.content)
      else .ok (e, none)
    else readTarLoop nm rest

/-- From `tar.go`, `ReadTar` (512-540) given the decoded entry sequence. -/
def readTar (entries : List TarEntry) (fileName : String) :
    Except GoError (TarEntry × Option (List Nat)) :=
  readTarLoop (pathCleanStr fileName) entries

/-! ## Archive session model (`tar.go` `Tar`, `openTarFile`,
`createTarFile`, `closeTarFile`; `part_002` `Zip`)

For the session-lifecycle claims the disk is an association list from
file names to byte lists.  The filesystem walk is abstracted by an
environment: the outcome of `os.Lstat(srcPath)`, the entries the walk
callback wrote before stopping, and the error (if any) that ended the
walk — the claims quantify over these outcomes, not over their causes. -/

/-- The disk: archive file names to contents. -/
abbrev Disk := List (String × List Nat)

/-- Look up a file's bytes. -/
def lookupD (d : Disk) (name : String) : Option (List Nat) :=
  (d.find? (fun b => b.1 = name)).map (fun b => b.2)

/-- Delete a file (`os.Remove`). -/
def removeD (d : Disk) (name : String) : Disk :=
  d.filter (fun b => b.1 ≠ name)

/-- Create or replace a file. -/
def setD (d : Disk) (name : String) (bytes : List Nat) : Disk :=
  (name, bytes) :: removeD d name

/-- Outcome of the source stat and of the `filepath.Walk` inside
`Tar`/`Zip`: the entries written before the walk ended and the error
that ended it, if any. -/
structure WalkEnv where
  statResult : Except GoError Unit
  written : List TarEntry
  walkErr : Option GoError
deriving Repr

/-- The `TarOptions` of `tar.go`. -/
structure TarOptions where
  append : Bool
  compression : Compression
  includeSourceDir : Bool
  filters : List String
deriving Repr

/-- The backward seek `openTarFile` performs before appending:
`file.Seek(-2<<9, os.SEEK_END)`, i.e. two 512-byte blocks. -/
def appendSeekBack : Nat := 2 <<< 9

/-- Pad or cut a byte list to one 512-byte tar block. -/
def padBlock (l : List Nat) : List Nat :=
  l.take 512 ++ List.replicate (512 - min 512 l.length) 0

/-- The header block written for an entry (an abstraction of the POSIX
header encoding; its exact bytes never matter to the claims, only that
each entry contributes a header block followed by its content). -/
def headerBytes (e : TarEntry) : List Nat :=
  padBlock (1 :: e.name.data.map Char.toNat)

/-- The bytes an entry occupies in an uncompressed tar stream. -/
def entryBytes (e : TarEntry) : List Nat :=
  headerBytes e ++ (if isRegFlag e.typeflag then padBlock e.content else [])

/-- The body of an uncompressed tar stream for a list of entries. -/
def tarBodyBytes : List TarEntry → List Nat
  | [] => []
  | e :: tl => entryBytes e ++ tarBodyBytes tl

/-- The two all-zero end-of-archive blocks `tar.Writer.Close` writes. -/
def endMarkerBytes : List Nat := List.replicate 1024 0

/-- Abstraction of the gzip framing `compress/gzip` writes around the
tar body; only its leading magic bytes ever matter. -/
def gzipWrap (body : List Nat) : List Nat :=
  gzipMagic ++ [0] ++ body

/-- From `tar.go`, `Tar` (403-474) together with `openTarFile` (629-686),
`createTarFile` (598-627) and the deferred `closeTarFile` (770-798):

* `os.Lstat(srcPath)` runs before anything touches the archive;
* append mode opens the existing file, sniffs its compression, rejects
  anything but uncompressed tar with `ErrAppendNotSupported` (leaving
  the bytes untouched), then seeks `appendSeekBack` bytes back from the
  end (a too-short file makes the seek fail) and writes from there;
* create mode rejects bzip2 before creating, then truncates/creates;
* the walk writes `env.written`; the deferred `closeTarFile` flushes
  the end marker and, when the walk failed, removes the file. -/
def tarM (env : WalkEnv) (d : Disk) (name : String) (opts : TarOptions) :
    Option GoError × Disk :=
  match env.statResult with
  | .error e => (some e, d)
  | .ok _ =>
    if opts.append then
      match lookupD d name with
      | none => (some .notExist, d)
      | some bytes =>
        match detectCompression bytes with
        | .error e => (some e, d)
        | .ok comp =>
          if comp ≠ .uncompressed then (some .appendNotSupported, d)
          else if bytes.length < appendSeekBack then (some .seekFail, d)
          else
            let final := bytes.take (bytes.length - appendSeekBack) ++
              tarBodyBytes env.written ++ endMarkerBytes
            match env.walkErr with
            | none => (none, setD d name final)
            | some e => (some e, removeD (setD d name final) name)
    else
      if opts.compression = .bzip2 then (some .bzip2NotSupported, d)
      else
        let body := tarBodyBytes env.written ++ endMarkerBytes
        let final := if opts.compression = .gzip then gzipWrap body else body
        match env.walkErr with
        | none => (none, setD d name final)
        | some e => (some e, removeD (setD d name final) name)

/-- The `ZipOptions` of `part_002` — note that `Zip` itself never reads
the `append` field. -/
structure ZipOptions where
  append : Bool
  includeSourceDir : Bool
  filters : List String
deriving Repr

/-- A zip local-entry record (abstraction of the zip encoding). -/
def zipEntryBytes (e : TarEntry) : List Nat :=
  [0x50, 0x4B, 0x03, 0x04] ++ e.name.data.map Char.toNat ++ e.content

/-- The zip end-of-central-directory record of an empty archive. -/
def zipEocd : List Nat := [0x50, 0x4B, 0x05, 0x06] ++ List.replicate 18 0

/-- The bytes `archive/zip` leaves in the file for a list of entries
(entries followed by the end-of-central-directory record). -/
def zipBytes : List TarEntry → List Nat
  | [] => zipEocd
  | e :: tl => zipEntryBytes e ++ zipBytes tl

/-- From `part_002`, `Zip` (41-105) with `createZipFile` (209-219) and the
deferred `closeZipFile` (318-336).  `options.Append` is never consulted:
after the source stat, `createZipFile` runs `os.Create(name)`, which
truncates any existing archive of that name. -/
def zipM (env : WalkEnv) (d : Disk) (name : String) (_opts : ZipOptions) :
    Option GoError × Disk :=
  match env.statResult with
  | .error e => (some e, d)
  | .ok _ =>
    let d1 := setD d name []
    match env.walkErr with
    | none => (none, setD d1 name (zipBytes env.written))
    | some e => (some e, removeD d1 name)

/-! ## Block-level model of the tar container (for the append claim)

A tar file is a sequence of 512-byte blocks: each entry is one header
block (never all-zero — it carries the name and the ustar magic)
followed by its content blocks, and the archive ends with two all-zero
blocks.  Content is kept abstract as one block per regular entry; only
the distance from the end of the file matters to the append seek, and
the end marker is exactly `appendSeekBack` bytes long. -/

/-- One 512-byte block of a tar file. -/
inductive Block
  | header (e : TarEntry)
  | content (c : List Nat)
  | zero
deriving DecidableEq, Repr

/-- The blocks an entry occupies. -/
def entryBlocks (e : TarEntry) : List Block :=
  .header e :: (if isRegFlag e.typeflag then [.content e.content] else [])

/-- The body blocks of an archive holding the given entries. -/
def tarBody : List TarEntry → List Block
  | [] => []
  | e :: tl => entryBlocks e ++ tarBody tl

/-- A freshly written tar file: body plus the two end-marker blocks. -/
def serializeTar (es : List TarEntry) : List Block :=
  tarBody es ++ [.zero, .zero]

/-- Appending to an open tar file: seek `appendSeekBack` bytes
(`appendSeekBack / 512` blocks) back from the end, write the new
entries from there (overwriting the end marker), and let `Close` write
a fresh end marker. -/
def tarAppendFile (fileBlocks : List Block) (newEntries : List TarEntry) :
    List Block :=
  fileBlocks.take (fileBlocks.length - appendSeekBack / 512) ++
    tarBody newEntries ++ [.zero, .zero]

/-- The sequential reader drain of `ListTar` (477-498): collect headers
until the end-of-archive marker (or the end of the block stream);
content blocks between headers are skipped by size. -/
def parseTar : List Block → List TarEntry
  | .header e :: rest => e :: parseTar rest
  | .content _ :: rest => parseTar rest
  | _ => []

/-! ## The containment check of `TarFile.Extract` (`tar.go` 168-224)

The first variant's `Extract` computes the entry's path relative to the
requested sub-tree `name` and skips the entry when `filepath.Rel` fails
or the relative path begins with `".."`; a kept entry is materialised at
`path.Join(targetDir, header.Name)`. -/

/-- The skip condition of `TarFile.Extract` (`tar.go` 188-191). -/
def extractSkips (name hdrName : String) : Bool :=
  match filepathRel name hdrName with
  | none => true
  | some r => goHasPfx r ".."

/-- The materialisation path of `TarFile.Extract` (`tar.go` 193). -/
def extractFilename (targetDir hdrName : String) : String :=
  pathJoin targetDir hdrName

/-- The node a tar entry materialises to (content of `matTar`'s
success cases, for stating extraction results). -/
def nodeOf (e : TarEntry) : FsNode :=
  match e.typeflag with
  | .dir => .dir
  | .symlink => .symlink e.linkname
  | _ => .file e.mode e.content

/-- Does a flat-mode extraction of entry `e` into `targetDir` write the
filesystem path `q`?  (Directory entries are skipped under `FlatDir`.) -/
def flatPred (targetDir : String) (q : PathP) (e : TarEntry) : Bool :=
  decide (e.typeflag ≠ .dir) &&
    decide (unTarTarget targetDir ⟨true, [], false⟩ e = q)

/-- The last-write characterisation of flat extraction: the node a path
`q` holds after flat-extracting `es` over the initial filesystem `fs0`
is that of the *last* entry flattening to `q`, or whatever `fs0` held
at `q` when no entry does. -/
def flatChar (targetDir : String) (fs0 : Fs) (es : List TarEntry)
    (q : PathP) : Option FsNode :=
  ((es.filter (flatPred targetDir q)).getLast?).elim (lookupFs fs0 q)
    (fun e2 => some (nodeOf e2))

/-- A well-formed cleaned segment: non-empty, not `"."`, no `/`. -/
def GoodSeg (x : Seg) : Prop := x ≠ [] ∧ x ≠ dotSeg ∧ '/' ∉ x

/-- The shape invariant of a relative clean stack: any `..` segments sit
at the bottom of the stack (they survive to the front of the cleaned
path). -/
def WfStack (st : List Seg) : Prop :=
  ∃ ys k, st = ys ++ List.replicate k dotdot ∧ dotdot ∉ ys

/-! ## Association-list lemmas -/

section AssocLemmas

variable {α β : Type} [DecidableEq α]

theorem find?_filter_self (l : List (α × β)) (k : α) :
    (l.filter (fun x => x.1 ≠ k)).find? (fun x => x.1 = k) = none := by
  induction l with
  | nil => rfl
  | cons b t ih =>
    rcases Decidable.em (b.1 = k) with hb | hb
    · have hfc : (b :: t).filter (fun x => x.1 ≠ k) =
          t.filter (fun x => x.1 ≠ k) := by
        simp [List.filter_cons, hb]
      rw [hfc]
      exact ih
    · have hfc : (b :: t).filter (fun x => x.1 ≠ k) =
          b :: t.filter (fun x => x.1 ≠ k) := by
        simp [List.filter_cons, hb]
      rw [hfc, List.find?_cons_of_neg _ (by simp [hb])]
      exact ih

theorem find?_filter_ne (l : List (α × β)) (k k' : α) (h : k' ≠ k) :
    (l.filter (fun x => x.1 ≠ k)).find? (fun x => x.1 = k') =
      l.find? (fun x => x.1 = k') := by
  induction l with
  | nil => rfl
  | cons b t ih =>
    rcases Decidable.em (b.1 = k) with hb | hb
    · have hfc : (b :: t).filter (fun x => x.1 ≠ k) =
          t.filter (fun x => x.1 ≠ k) := by
        simp [List.filter_cons, hb]
      have hb' : ¬ (b.1 = k') := fun hx => h (hx.symm.trans hb)
      rw [hfc, List.find?_cons_of_neg _ (by simp [hb']), ih]
    · have hfc : (b :: t).filter (fun x => x.1 ≠ k) =
          b :: t.filter (fun x => x.1 ≠ k) := by
        simp [List.filter_cons, hb]
      rw [hfc]
      rcases Decidable.em (b.1 = k') with hb2 | hb2
      · rw [List.find?_cons_of_pos _ (by simp [hb2]),
          List.find?_cons_of_pos _ (by simp [hb2])]
      · rw [List.find?_cons_of_neg _ (by simp [hb2]),
          List.find?_cons_of_neg _ (by simp [hb2]), ih]

theorem filter_ne_filter_ne (l : List (α × β)) (k : α) :
    ((l.filter (fun b => b.1 ≠ k)).filter (fun b => b.1 ≠ k)) =
      l.filter (fun b => b.1 ≠ k) := by
  induction l with
  | nil => rfl
  | cons b t ih =>
    by_cases hb : b.1 = k <;> simp [List.filter_cons, hb, ih]

end AssocLemmas

theorem lookupFs_removeFs_self (fs : Fs) (p : PathP) :
    lookupFs (removeFs fs p) p = none := by
  simp [lookupFs, removeFs, find?_filter_self]

theorem lookupFs_removeFs_ne (fs : Fs) (p q : PathP) (h : q ≠ p) :
    lookupFs (removeFs fs p) q = lookupFs fs q := by
  unfold lookupFs removeFs
  rw [find?_filter_ne fs p q h]

theorem lookupFs_setFs_self (fs : Fs) (p : PathP) (n : FsNode) :
    lookupFs (setFs fs p n) p = some n := by
  simp [lookupFs, setFs, List.find?_cons]

theorem lookupFs_setFs_ne (fs : Fs) (p q : PathP) (n : FsNode) (h : q ≠ p) :
    lookupFs (setFs fs p n) q = lookupFs fs q := by
  unfold lookupFs setFs removeFs
  rw [List.find?_cons_of_neg _ (by simp [Ne.symm h])]
  rw [find?_filter_ne fs p q h]

theorem setFs_removeFs (fs : Fs) (p : PathP) (n : FsNode) :
    setFs (removeFs fs p) p n = setFs fs p n := by
  unfold setFs removeFs
  rw [filter_ne_filter_ne]

theorem lookupD_removeD_self (d : Disk) (name : String) :
    lookupD (removeD d name) name = none := by
  unfold lookupD removeD
  rw [find?_filter_self]
  rfl

/-! ## Path algebra

Lemmas about `splitCh`, `pushSeg` and `cleanParsed` that the
containment and flattening claims rest on. -/

theorem splitCh_ne_nil (l : List Char) : splitCh l ≠ [] := by
  cases l with
  | nil => simp [splitCh]
  | cons c rest =>
    unfold splitCh
    by_cases hc : c = '/'
    · simp [hc]
    · rw [if_neg hc]
      cases h : splitCh rest <;> simp

theorem splitCh_cons (c : Char) (rest : List Char) :
    splitCh (c :: rest) =
      if c = '/' then [] :: splitCh rest
      else
        match splitCh rest with
        | [] => [[c]]
        | g :: gs => (c :: g) :: gs := rfl

theorem splitCh_append (l₁ l₂ : List Char) :
    splitCh (l₁ ++ '/' :: l₂) = splitCh l₁ ++ splitCh l₂ := by
  induction l₁ with
  | nil =>
    rw [List.nil_append, splitCh_cons]
    simp [splitCh]
  | cons c rest ih =>
    rw [List.cons_append, splitCh_cons, splitCh_cons, ih]
    by_cases hc : c = '/'
    · rw [if_pos hc, if_pos hc]
      simp
    · rw [if_neg hc, if_neg hc]
      cases h : splitCh rest with
      | nil => exact absurd h (splitCh_ne_nil rest)
      | cons g gs => simp [h]

theorem no_slash_mem_splitCh (l : List Char) :
    ∀ g ∈ splitCh l, '/' ∉ g := by
  induction l with
  | nil =>
    intro g hg
    simp [splitCh] at hg
    simp [hg]
  | cons c rest ih =>
    intro g hg
    unfold splitCh at hg
    by_cases hc : c = '/'
    · rw [if_pos hc] at hg
      rcases List.mem_cons.mp hg with h | h
      · simp [h]
      · exact ih g h
    · rw [if_neg hc] at hg
      cases hs : splitCh rest with
      | nil => exact absurd hs (splitCh_ne_nil rest)
      | cons g0 gs =>
        rw [hs] at hg
        rcases List.mem_cons.mp hg with h | h
        · intro hmem
          rw [h] at hmem
          rcases List.mem_cons.mp hmem with h2 | h2
          · exact hc h2.symm
          · exact ih g0 (by rw [hs]; exact List.mem_cons_self _ _) h2
        · exact ih g (by rw [hs]; exact List.mem_cons_of_mem _ h)

theorem splitCh_no_slash (l : List Char) (h : '/' ∉ l) : splitCh l = [l] := by
  induction l with
  | nil => rfl
  | cons c rest ih =>
    have hc : ¬ c = '/' := fun he => h (by rw [he]; exact List.mem_cons_self _ _)
    unfold splitCh
    rw [if_neg hc, ih (fun hm => h (List.mem_cons_of_mem _ hm))]

/-! ### `pushSeg` case equations -/

theorem pushSeg_skip (r : Bool) (st : List Seg) (seg : Seg)
    (h : seg = [] ∨ seg = dotSeg) : pushSeg r st seg = st := by
  unfold pushSeg
  rw [if_pos h]

theorem pushSeg_normal (r : Bool) (st : List Seg) (seg : Seg)
    (h1 : ¬ (seg = [] ∨ seg = dotSeg)) (h2 : seg ≠ dotdot) :
    pushSeg r st seg = seg :: st := by
  unfold pushSeg
  rw [if_neg h1, if_neg h2]

theorem pushSeg_dotdot_nil (r : Bool) :
    pushSeg r [] dotdot = if r then [] else [dotdot] := by
  unfold pushSeg
  rw [if_neg (by decide : ¬ (dotdot = [] ∨ dotdot = dotSeg)), if_pos rfl]

theorem pushSeg_dotdot_cons_ne (r : Bool) (a : Seg) (st : List Seg)
    (ha : a ≠ dotdot) : pushSeg r (a :: st) dotdot = st := by
  unfold pushSeg
  rw [if_neg (by decide : ¬ (dotdot = [] ∨ dotdot = dotSeg)), if_pos rfl]
  simp [ha]

theorem pushSeg_dotdot_cons_dd (r : Bool) (st : List Seg) :
    pushSeg r (dotdot :: st) dotdot = dotdot :: dotdot :: st := by
  unfold pushSeg
  rw [if_neg (by decide : ¬ (dotdot = [] ∨ dotdot = dotSeg)), if_pos rfl]
  simp

theorem dotdot_mem_pushSeg (st : List Seg) (seg : Seg) (h : dotdot ∈ st) :
    dotdot ∈ pushSeg false st seg := by
  by_cases h1 : seg = [] ∨ seg = dotSeg
  · rw [pushSeg_skip false st seg h1]
    exact h
  · by_cases h2 : seg = dotdot
    · subst h2
      cases st with
      | nil => cases h
      | cons a st' =>
        by_cases ha : a = dotdot
        · rw [ha, pushSeg_dotdot_cons_dd]
          simp
        · rw [pushSeg_dotdot_cons_ne false a st' ha]
          rcases List.mem_cons.mp h with h' | h'
          · exact absurd h'.symm ha
          · exact h'
    · rw [pushSeg_normal false st seg h1 h2]
      exact List.mem_cons_of_mem _ h

theorem dotdot_mem_foldl (l : List Seg) :
    ∀ st : List Seg, dotdot ∈ st → dotdot ∈ l.foldl (pushSeg false) st := by
  induction l with
  | nil => exact fun st h => h
  | cons seg rest ih =>
    intro st h
    simp only [List.foldl_cons]
    exact ih _ (dotdot_mem_pushSeg st seg h)

/-- Composition of cleaning: pushing a path whose relative clean stack
has no `..` on top of an existing `..`-free stack appends the two
stacks, whatever the rootedness of the surrounding path.  (If the
relative run needed an upward step, a `..` would persist in its stack —
`dotdot_mem_foldl` — so the hypothesis rules that out.) -/
theorem foldl_pushSeg_append (r : Bool) :
    ∀ (xs A S : List Seg), dotdot ∉ xs.foldl (pushSeg false) A → dotdot ∉ A →
      dotdot ∉ S →
      xs.foldl (pushSeg r) (A ++ S) = xs.foldl (pushSeg false) A ++ S
  | [], A, S, h1, h2, h3 => rfl
  | seg :: rest, A, S, h1, h2, h3 => by
    simp only [List.foldl_cons] at h1 ⊢
    by_cases hskip : seg = [] ∨ seg = dotSeg
    · rw [pushSeg_skip r (A ++ S) seg hskip]
      rw [pushSeg_skip false A seg hskip] at h1 ⊢
      exact foldl_pushSeg_append r rest A S h1 h2 h3
    · by_cases hdd : seg = dotdot
      · subst hdd
        cases A with
        | nil =>
          exfalso
          rw [pushSeg_dotdot_nil false] at h1
          simp only [if_false, Bool.false_eq_true] at h1
          exact h1 (dotdot_mem_foldl rest [dotdot] (List.mem_cons_self _ _))
        | cons a A' =>
          have ha : a ≠ dotdot :=
            fun he => h2 (by rw [he]; exact List.mem_cons_self _ _)
          rw [List.cons_append, pushSeg_dotdot_cons_ne r a (A' ++ S) ha,
            pushSeg_dotdot_cons_ne false a A' ha]
          rw [pushSeg_dotdot_cons_ne false a A' ha] at h1
          exact foldl_pushSeg_append r rest A' S h1
            (fun hm => h2 (List.mem_cons_of_mem _ hm)) h3
      · rw [pushSeg_normal r (A ++ S) seg hskip hdd,
          pushSeg_normal false A seg hskip hdd]
        rw [pushSeg_normal false A seg hskip hdd] at h1
        have hstep : seg :: (A ++ S) = (seg :: A) ++ S := rfl
        rw [hstep]
        refine foldl_pushSeg_append r rest (seg :: A) S h1 ?_ h3
        intro hm
        rcases List.mem_cons.mp hm with h' | h'
        · exact hdd h'.symm
        · exact h2 h'

theorem wfStack_pushSeg (st : List Seg) (seg : Seg) (h : WfStack st) :
    WfStack (pushSeg false st seg) := by
  obtain ⟨ys, k, hst, hys⟩ := h
  by_cases h1 : seg = [] ∨ seg = dotSeg
  · rw [pushSeg_skip false st seg h1]
    exact ⟨ys, k, hst, hys⟩
  · by_cases h2 : seg = dotdot
    · subst h2
      cases hys0 : ys with
      | nil =>
        rw [hys0] at hst
        simp only [List.nil_append] at hst
        subst hst
        cases k with
        | zero =>
          rw [List.replicate_zero, pushSeg_dotdot_nil false]
          exact ⟨[], 1, by simp, by simp⟩
        | succ k' =>
          rw [List.replicate_succ, pushSeg_dotdot_cons_dd]
          exact ⟨[], k' + 2, by simp [List.replicate_succ], by simp⟩
      | cons y ys' =>
        have hy : y ≠ dotdot :=
          fun he => hys (by rw [hys0, he]; exact List.mem_cons_self _ _)
        rw [hys0] at hst
        rw [hst, List.cons_append, pushSeg_dotdot_cons_ne false y _ hy]
        exact ⟨ys', k, rfl,
          fun hm => hys (by rw [hys0]; exact List.mem_cons_of_mem _ hm)⟩
    · rw [pushSeg_normal false st seg h1 h2, hst]
      refine ⟨seg :: ys, k, rfl, ?_⟩
      intro hm
      rcases List.mem_cons.mp hm with h' | h'
      · exact h2 h'.symm
      · exact hys h'

theorem wfStack_foldl (l : List Seg) :
    ∀ st : List Seg, WfStack st → WfStack (l.foldl (pushSeg false) st) := by
  induction l with
  | nil => exact fun st h => h
  | cons seg rest ih =>
    intro st h
    simp only [List.foldl_cons]
    exact ih _ (wfStack_pushSeg st seg h)

theorem goodSeg_foldl (r : Bool) :
    ∀ (xs : List Seg) (st : List Seg),
      (∀ x ∈ st, GoodSeg x) → (∀ s ∈ xs, '/' ∉ s) →
      ∀ x ∈ xs.foldl (pushSeg r) st, GoodSeg x
  | [], st, hst, _, x, hx => hst x hx
  | seg :: rest, st, hst, hxs, x, hx => by
    simp only [List.foldl_cons] at hx
    refine goodSeg_foldl r rest (pushSeg r st seg) ?_
      (fun s hs => hxs s (List.mem_cons_of_mem _ hs)) x hx
    intro y hy
    by_cases h1 : seg = [] ∨ seg = dotSeg
    · rw [pushSeg_skip r st seg h1] at hy
      exact hst y hy
    · by_cases h2 : seg = dotdot
      · subst h2
        cases st with
        | nil =>
          rw [pushSeg_dotdot_nil r] at hy
          cases hr : r <;> rw [hr] at hy <;> simp at hy
          · rw [hy]
            exact ⟨by decide, by decide, by decide⟩
        | cons a st' =>
          by_cases ha : a = dotdot
          · rw [ha, pushSeg_dotdot_cons_dd r st'] at hy
            rcases List.mem_cons.mp hy with h' | h'
            · rw [h']
              exact ⟨by decide, by decide, by decide⟩
            · rcases List.mem_cons.mp h' with h'' | h''
              · rw [h'']
                exact ⟨by decide, by decide, by decide⟩
              · exact hst y (List.mem_cons_of_mem _ h'')
          · rw [pushSeg_dotdot_cons_ne r a st' ha] at hy
            exact hst y (List.mem_cons_of_mem _ hy)
      · rw [pushSeg_normal r st seg h1 h2] at hy
        rcases List.mem_cons.mp hy with h' | h'
        · rw [h']
          push_neg at h1
          exact ⟨h1.1, h1.2, hxs seg (List.mem_cons_self _ _)⟩
        · exact hst y h'

/-- All segments of a cleaned path are well formed. -/
theorem cleanParsed_good (s : String) :
    ∀ x ∈ (cleanParsed s).2, GoodSeg x := by
  intro x hx
  unfold cleanParsed at hx
  simp only at hx
  rw [List.mem_reverse] at hx
  exact goodSeg_foldl (rootedB s) (splitCh s.data) [] (by simp)
    (no_slash_mem_splitCh s.data) x hx

/-- A relative cleaned path carries all its `..` segments in front. -/
theorem cleanParsed_wfSegs (s : String) (hr : rootedB s = false) :
    ∃ k zs, (cleanParsed s).2 = List.replicate k dotdot ++ zs ∧
      dotdot ∉ zs := by
  have hw : WfStack (cleanStackC false s.data) :=
    wfStack_foldl (splitCh s.data) [] ⟨[], 0, rfl, by simp⟩
  obtain ⟨ys, k, hst, hys⟩ := hw
  refine ⟨k, ys.reverse, ?_, by simpa using hys⟩
  unfold cleanParsed cleanStackC
  rw [hr]
  unfold cleanStackC at hst
  rw [hst]
  simp

theorem splitCh_interSegs : ∀ segs : List Seg, segs ≠ [] →
    (∀ x ∈ segs, x ≠ [] ∧ '/' ∉ x) → splitCh (interSegs segs) = segs
  | [], h, _ => absurd rfl h
  | [s], _, hx => by
    show splitCh s = [s]
    exact splitCh_no_slash s (hx s (List.mem_cons_self _ _)).2
  | s :: s2 :: rest, _, hx => by
    show splitCh (s ++ '/' :: interSegs (s2 :: rest)) = s :: s2 :: rest
    rw [splitCh_append, splitCh_no_slash s (hx s (List.mem_cons_self _ _)).2]
    rw [splitCh_interSegs (s2 :: rest) (by simp)
      (fun x h => hx x (List.mem_cons_of_mem _ h))]
    rfl

theorem foldl_pushSeg_normal (r : Bool) :
    ∀ (segs st : List Seg),
      (∀ x ∈ segs, ¬(x = [] ∨ x = dotSeg) ∧ x ≠ dotdot) →
      segs.foldl (pushSeg r) st = segs.reverse ++ st
  | [], st, _ => by simp
  | s :: rest, st, h => by
    simp only [List.foldl_cons]
    rw [pushSeg_normal r st s (h s (List.mem_cons_self _ _)).1
      (h s (List.mem_cons_self _ _)).2]
    rw [foldl_pushSeg_normal r rest (s :: st)
      (fun x hx => h x (List.mem_cons_of_mem _ hx))]
    simp

theorem rootedChars_slash (l : List Char) : rootedChars ('/' :: l) = true := by
  simp [rootedChars]

theorem rootedChars_append_no_slash (s X : List Char) (hne : s ≠ [])
    (hs : '/' ∉ s) : rootedChars (s ++ X) = false := by
  cases s with
  | nil => exact absurd rfl hne
  | cons c cs =>
    have hc : ¬ c = '/' := fun he => hs (by rw [he]; exact List.mem_cons_self _ _)
    simp [rootedChars, hc]

theorem interSegs_cons (s : Seg) (srest : List Seg) :
    ∃ X, interSegs (s :: srest) = s ++ X := by
  cases srest with
  | nil => exact ⟨[], by simp [interSegs]⟩
  | cons b bs => exact ⟨'/' :: interSegs (b :: bs), rfl⟩

/-- Cleaning is the identity on an already-cleaned rendered path with
well-formed, `..`-free segments (parse-render roundtrip). -/
theorem cleanParsed_renderP (r : Bool) (segs : List Seg)
    (h1 : ∀ x ∈ segs, GoodSeg x) (h2 : dotdot ∉ segs) :
    cleanParsed (renderP r segs) = (r, segs) := by
  have hgood : ∀ x ∈ segs, ¬ (x = [] ∨ x = dotSeg) ∧ x ≠ dotdot := by
    intro x hx
    obtain ⟨g1, g2, _⟩ := h1 x hx
    refine ⟨?_, fun he => h2 (he ▸ hx)⟩
    push_neg
    exact ⟨g1, g2⟩
  have hx' : ∀ x ∈ segs, x ≠ [] ∧ '/' ∉ x := by
    intro x hx
    obtain ⟨g1, _, g3⟩ := h1 x hx
    exact ⟨g1, g3⟩
  cases r with
  | true =>
    cases segs with
    | nil => decide
    | cons s srest =>
      show cleanParsed (String.mk ('/' :: interSegs (s :: srest))) =
        (true, s :: srest)
      unfold cleanParsed cleanStackC rootedB
      rw [show (String.mk ('/' :: interSegs (s :: srest))).data =
        '/' :: interSegs (s :: srest) from rfl]
      rw [rootedChars_slash]
      rw [splitCh_cons, if_pos rfl]
      rw [splitCh_interSegs (s :: srest) (by simp) hx']
      rw [List.foldl_cons, pushSeg_skip true [] [] (Or.inl rfl)]
      rw [foldl_pushSeg_normal true (s :: srest) [] hgood]
      simp
  | false =>
    cases segs with
    | nil => decide
    | cons s srest =>
      show cleanParsed (renderP false (s :: srest)) = (false, s :: srest)
      unfold renderP
      rw [if_neg (by simp : ¬ (false = true)), if_neg (by simp :
        ¬ (s :: srest : List Seg) = [])]
      obtain ⟨X, hX⟩ := interSegs_cons s srest
      unfold cleanParsed cleanStackC rootedB
      rw [show (String.mk (interSegs (s :: srest))).data =
        interSegs (s :: srest) from rfl]
      rw [hX, rootedChars_append_no_slash s X
        (hx' s (List.mem_cons_self _ _)).1 (hx' s (List.mem_cons_self _ _)).2]
      rw [← hX]
      rw [splitCh_interSegs (s :: srest) (by simp) hx']
      rw [foldl_pushSeg_normal false (s :: srest) [] hgood]
      simp

theorem data_concat (t b : String) :
    (t ++ "/" ++ b).data = t.data ++ '/' :: b.data := by
  rw [String.data_append, String.data_append]
  simp

theorem data_ne_nil_of_ne_empty (t : String) (h : t ≠ "") : t.data ≠ [] := by
  cases t with
  | mk l =>
    intro hd
    exact h (congrArg String.mk hd)

theorem rootedB_concat (t b : String) (ht : t.data ≠ []) :
    rootedB (t ++ "/" ++ b) = rootedB t := by
  unfold rootedB
  rw [data_concat]
  cases hd : t.data with
  | nil => exact absurd hd ht
  | cons c l => rfl

/-- Cleaning the slash-concatenation of a `..`-free path and a relative
path whose clean form has no `..` concatenates the cleaned segments. -/
theorem cleanParsed_concat (t hn : String) (ht : t.data ≠ [])
    (h1 : dotdot ∉ (cleanParsed t).2)
    (hhn : rootedB hn = false)
    (h2 : dotdot ∉ (cleanParsed hn).2) :
    cleanParsed (t ++ "/" ++ hn) =
      (rootedB t, (cleanParsed t).2 ++ (cleanParsed hn).2) := by
  have hsplit : splitCh (t ++ "/" ++ hn).data =
      splitCh t.data ++ splitCh hn.data := by
    rw [data_concat, splitCh_append]
  have h1' : dotdot ∉ cleanStackC (rootedB t) t.data := by
    intro hm
    exact h1 (by unfold cleanParsed; simpa using hm)
  have h2' : dotdot ∉ cleanStackC false hn.data := by
    intro hm
    apply h2
    unfold cleanParsed
    rw [hhn]
    simpa using hm
  unfold cleanParsed
  rw [rootedB_concat t hn ht]
  have hcomp := foldl_pushSeg_append (rootedB t) (splitCh hn.data) []
    (cleanStackC (rootedB t) t.data) h2' (by simp) h1'
  unfold cleanStackC
  rw [hsplit, List.foldl_append]
  unfold cleanStackC at hcomp
  rw [List.nil_append] at hcomp
  rw [hcomp]
  simp
  rw [hhn]

/-- Go `path.Join` of a `..`-free target and a relative `..`-free entry
name resolves to the target's segments extended by the entry's cleaned
segments: the result stays below the target. -/
theorem cleanParsed_pathJoin (t hn : String) (ht : t ≠ "")
    (h1 : dotdot ∉ (cleanParsed t).2) (hhn : rootedB hn = false)
    (h2 : dotdot ∉ (cleanParsed hn).2) :
    cleanParsed (pathJoin t hn) =
      (rootedB t, (cleanParsed t).2 ++ (cleanParsed hn).2) := by
  unfold pathJoin
  rw [if_neg (fun hc => ht hc.1), if_neg ht]
  by_cases hb : hn = ""
  · rw [if_pos hb]
    have hrt : pathCleanStr t = renderP (rootedB t) (cleanParsed t).2 := rfl
    rw [hrt, cleanParsed_renderP (rootedB t) (cleanParsed t).2
      (cleanParsed_good t) h1, hb]
    rw [show (cleanParsed "").2 = [] from rfl]
    simp
  · rw [if_neg hb]
    have hcc := cleanParsed_concat t hn (data_ne_nil_of_ne_empty t ht) h1 hhn h2
    have hcs : pathCleanStr (t ++ "/" ++ hn) =
        renderP (rootedB t) ((cleanParsed t).2 ++ (cleanParsed hn).2) := by
      unfold pathCleanStr
      rw [hcc]
    rw [hcs]
    refine cleanParsed_renderP _ _ ?_ ?_
    · intro x hx
      rcases List.mem_append.mp hx with h' | h'
      · exact cleanParsed_good t x h'
      · exact cleanParsed_good hn x h'
    · intro hm
      rcases List.mem_append.mp hm with h' | h'
      · exact h1 h'
      · exact h2 h'

theorem goHasPfx_dotdot (rest : List Seg) :
    goHasPfx (renderP false (dotdot :: rest)) ".." = true := by
  unfold renderP
  rw [if_neg (by simp : ¬ (false = true)),
    if_neg (by simp : ¬ (dotdot :: rest : List Seg) = [])]
  unfold goHasPfx
  rw [show (String.mk (interSegs (dotdot :: rest))).data =
    interSegs (dotdot :: rest) from rfl]
  rw [show (".." : String).data = ['.', '.'] from rfl]
  cases rest with
  | nil => decide
  | cons b bs =>
    show (['.', '.'] : List Char).isPrefixOf
      (dotdot ++ '/' :: interSegs (b :: bs)) = true
    simp [List.isPrefixOf, dotdot]

theorem dropCommon_nil_left : ∀ (as bs t : List Seg),
    dropCommon as bs = ([], t) → bs = as ++ t
  | [], bs, t, h => by
    unfold dropCommon at h
    simp at h
    rw [h]
    rfl
  | _ :: _, [], t, h => by
    unfold dropCommon at h
    simp at h
  | a :: as, b :: bs, t, h => by
    unfold dropCommon at h
    by_cases hab : a = b
    · rw [if_pos hab] at h
      have ih := dropCommon_nil_left as bs t h
      rw [List.cons_append, ← ih, hab]
    · rw [if_neg hab] at h
      simp at h

/-- A header name that survives the skip test of `TarFile.Extract`
(`filepath.Rel` succeeded and the relative path has no `".."` string
prefix) cleans to a relative path without any upward segment, provided
the match prefix itself is relative and upward-free. -/
theorem relPass_structure (name hn : String)
    (hb1 : rootedB name = false) (hb2 : dotdot ∉ (cleanParsed name).2)
    (hpass : extractSkips name hn = false) :
    rootedB hn = false ∧ dotdot ∉ (cleanParsed hn).2 := by
  rcases hrel : filepathRel name hn with _ | r
  · unfold extractSkips at hpass
    rw [hrel] at hpass
    exact absurd hpass (by simp)
  · unfold extractSkips at hpass
    rw [hrel] at hpass
    dsimp only at hpass
    unfold filepathRel at hrel
    simp only [] at hrel
    by_cases heq : (cleanParsed name).1 = (cleanParsed hn).1 ∧
        (cleanParsed name).2 = (cleanParsed hn).2
    · refine ⟨?_, ?_⟩
      · have h' : rootedB name = rootedB hn := heq.1
        rw [← h']
        exact hb1
      · rw [← heq.2]
        exact hb2
    · rw [if_neg heq] at hrel
      by_cases hne2 : (cleanParsed name).1 = (cleanParsed hn).1
      · rw [if_neg (fun hc => hc hne2)] at hrel
        have hroot : rootedB hn = false := by
          have h' : rootedB name = rootedB hn := hne2
          rw [← h']
          exact hb1
        refine ⟨hroot, ?_⟩
        rcases hdc : dropCommon (cleanParsed name).2 (cleanParsed hn).2 with
          ⟨bRem, tRem⟩
        rw [hdc] at hrel
        cases bRem with
        | cons b0 bRest =>
          simp only [] at hrel
          by_cases hb0 : b0 = dotdot
          · rw [if_pos hb0] at hrel
            cases hrel
          · rw [if_neg hb0] at hrel
            have hr : r = renderP false
                (List.replicate (b0 :: bRest).length dotdot ++ tRem) := by
              cases hrel
              rfl
            rw [show (b0 :: bRest).length = bRest.length + 1 from rfl,
              List.replicate_succ, List.cons_append] at hr
            rw [hr, goHasPfx_dotdot] at hpass
            cases hpass
        | nil =>
          simp only [] at hrel
          have hts : (cleanParsed hn).2 = (cleanParsed name).2 ++ tRem :=
            dropCommon_nil_left _ _ _ hdc
          have hr : r = renderP false tRem := by
            cases hrel
            rfl
          obtain ⟨k, zs, hwf, hzs⟩ := cleanParsed_wfSegs hn hroot
          cases k with
          | zero =>
            rw [hwf]
            simpa using hzs
          | succ k' =>
            exfalso
            rw [List.replicate_succ, List.cons_append, hts] at hwf
            cases hbs : (cleanParsed name).2 with
            | nil =>
              rw [hbs, List.nil_append] at hwf
              rw [hwf] at hr
              rw [hr, goHasPfx_dotdot] at hpass
              exact absurd hpass (by simp)
            | cons b bs' =>
              rw [hbs, List.cons_append] at hwf
              have hbd : b = dotdot := (List.cons.injEq _ _ _ _).mp hwf |>.1
              exact hb2 (by rw [hbs, hbd]; exact List.mem_cons_self _ _)
      · rw [if_pos hne2] at hrel
        cases hrel

/-! ## C1 — extraction containment -/

/-- C1 (amended): `TarFile.Extract` skips every entry whose path
relative to the match prefix `name` cannot be computed or begins with
`".."`; for a match prefix that is itself relative and upward-free and
a target directory whose cleaned form has no `".."`, every entry that
is *not* skipped materialises at a path whose cleaned segments extend
the target directory's segments — extraction stays inside the target.
(`UnTar`, by contrast, performs no such check; see the counterexample.) -/
theorem extract_contained (name hn targetDir : String)
    (ht0 : targetDir ≠ "") (ht1 : dotdot ∉ (cleanParsed targetDir).2)
    (hn1 : rootedB name = false) (hn2 : dotdot ∉ (cleanParsed name).2)
    (hpass : extractSkips name hn = false) :
    cleanParsed (extractFilename targetDir hn) =
      (rootedB targetDir, (cleanParsed targetDir).2 ++ (cleanParsed hn).2) ∧
    rootedB hn = false ∧ dotdot ∉ (cleanParsed hn).2 := by
  obtain ⟨hr, hd⟩ := relPass_structure name hn hn1 hn2 hpass
  exact ⟨cleanParsed_pathJoin targetDir hn ht0 ht1 hr hd, hr, hd⟩

/-- Witness for `extract_contained`: extracting sub-tree `"c"`'s entry
`"c/c2.txt"` into `"out"`. -/
theorem extract_contained_w :
    cleanParsed (extractFilename "out" "c/c2.txt") =
      (rootedB "out", (cleanParsed "out").2 ++ (cleanParsed "c/c2.txt").2) ∧
    rootedB "c/c2.txt" = false ∧ dotdot ∉ (cleanParsed "c/c2.txt").2 :=
  extract_contained "c" "c/c2.txt" "out" (by decide) (by decide) (by decide)
    (by decide) (by decide)

/-- C1 (counterexample): `UnTar` has no containment check.  Extracting
the archive whose single entry is named `"../evil"` into target `"out"`
succeeds and materialises a regular file at the cleaned path `"evil"` —
the parent of the target directory, i.e. outside of it (its first
segment does not extend `"out"`). -/
theorem unTar_escapes :
    (unTar [⟨"../evil", .reg, 420, [7], ""⟩] "out" ⟨false, [], false⟩
      [(parsePath "out", .dir)]).2 = none ∧
    lookupFs (unTar [⟨"../evil", .reg, 420, [7], ""⟩] "out" ⟨false, [], false⟩
      [(parsePath "out", .dir)]).1 (parsePath "evil") =
      some (.file 420 [7]) ∧
    parsePath "evil" ≠ parsePath "out" ∧
    (parsePath "evil").2.take 1 ≠ (parsePath "out").2.take 1 := by
  refine ⟨by decide, by decide, by decide, by decide⟩

/-! ## C6 — FlatDir extraction -/

theorem string_ext (a b : String) (h : a.data = b.data) : a = b := by
  cases a with
  | mk l1 =>
    cases b with
    | mk l2 =>
      rw [show (String.mk l1).data = l1 from rfl,
        show (String.mk l2).data = l2 from rfl] at h
      rw [h]

theorem getLast?_mem_self {α : Type} (l : List α) (a : α)
    (h : l.getLast? = some a) : a ∈ l := by
  obtain ⟨hne, heq⟩ := List.mem_getLast?_eq_getLast (show a ∈ l.getLast? from h)
  rw [heq]
  exact List.getLast_mem hne

theorem pathBaseStr_shape (s : String) :
    pathBaseStr s = "." ∨ pathBaseStr s = "/" ∨
    ((pathBaseStr s).data ≠ [] ∧ '/' ∉ (pathBaseStr s).data) := by
  unfold pathBaseStr
  by_cases h0 : s.data = []
  · rw [if_pos h0]
    exact Or.inl rfl
  · rw [if_neg h0]
    simp only [List.reverse_reverse]
    by_cases hl : ((s.data.reverse.dropWhile (fun c => c = '/')).takeWhile
        (fun c => c ≠ '/')).reverse = ([] : List Char)
    · rw [if_pos hl]
      exact Or.inr (Or.inl rfl)
    · rw [if_neg hl]
      refine Or.inr (Or.inr ⟨hl, ?_⟩)
      intro hm
      rw [show (String.mk (((s.data.reverse.dropWhile (fun c => c = '/')).takeWhile
        (fun c => c ≠ '/')).reverse)).data = ((s.data.reverse.dropWhile
        (fun c => c = '/')).takeWhile (fun c => c ≠ '/')).reverse from rfl] at hm
      rw [List.mem_reverse] at hm
      have := List.mem_takeWhile_imp hm
      simp at this

theorem flatName_data_good (e : TarEntry) (h1 : flatName e ≠ ".")
    (h2 : flatName e ≠ "..") (h3 : flatName e ≠ "/") :
    flatName e ≠ "" ∧ (flatName e).data ≠ [] ∧ '/' ∉ (flatName e).data ∧
    (flatName e).data ≠ dotSeg ∧ (flatName e).data ≠ dotdot := by
  rcases pathBaseStr_shape (pathCleanStr e.name) with h | h | h
  · exact absurd h h1
  · exact absurd h h3
  · obtain ⟨hne, hns⟩ := h
    refine ⟨?_, hne, hns, ?_, ?_⟩
    · intro he
      unfold flatName at he
      exact hne (by rw [he])
    · intro he
      exact h1 (string_ext _ _ he)
    · intro he
      exact h2 (string_ext _ _ he)

theorem cleanParsed_single (b : String) (h1 : b.data ≠ []) (h2 : '/' ∉ b.data)
    (h3 : b.data ≠ dotSeg) (h4 : b.data ≠ dotdot) :
    cleanParsed b = (false, [b.data]) := by
  unfold cleanParsed cleanStackC rootedB
  rw [splitCh_no_slash b.data h2]
  have hr : rootedChars b.data = false := by
    cases hd : b.data with
    | nil => exact absurd hd h1
    | cons c l =>
      have hc : ¬ c = '/' := by
        intro he
        exact h2 (by rw [hd, he]; exact List.mem_cons_self _ _)
      simp [rootedChars, hc]
  rw [hr]
  rw [List.foldl_cons, pushSeg_normal false [] b.data
    (by push_neg; exact ⟨h1, h3⟩) h4]
  rfl

/-- Under `FlatDir` every kept entry extracts to the path directly
under the target root carrying only its base name. -/
theorem unTarTarget_flat (targetDir : String) (e : TarEntry)
    (ht0 : targetDir ≠ "") (ht1 : dotdot ∉ (cleanParsed targetDir).2)
    (h1 : flatName e ≠ ".") (h2 : flatName e ≠ "..") (h3 : flatName e ≠ "/") :
    unTarTarget targetDir ⟨true, [], false⟩ e =
      (rootedB targetDir, (cleanParsed targetDir).2 ++ [(flatName e).data]) := by
  obtain ⟨_, hd1, hd2, hd3, hd4⟩ := flatName_data_good e h1 h2 h3
  have hsingle := cleanParsed_single (flatName e) hd1 hd2 hd3 hd4
  have hroot : rootedB (flatName e) = false := congrArg Prod.fst hsingle
  have hdd : dotdot ∉ (cleanParsed (flatName e)).2 := by
    rw [show (cleanParsed (flatName e)).2 = [(flatName e).data] from
      congrArg Prod.snd hsingle]
    intro hm
    exact hd4 (List.mem_singleton.mp hm).symm
  show parsePath (pathJoin targetDir (flatName e)) = _
  unfold parsePath
  rw [cleanParsed_pathJoin targetDir (flatName e) ht0 ht1 hroot hdd]
  rw [show (cleanParsed (flatName e)).2 = [(flatName e).data] from
    congrArg Prod.snd hsingle]

theorem nodeOf_ne_dir (e : TarEntry) (hd : e.typeflag ≠ .dir)
    (ho : ∀ b, e.typeflag ≠ .other b) : nodeOf e ≠ .dir := by
  unfold nodeOf
  cases ht : e.typeflag with
  | dir => exact absurd ht hd
  | other b => exact absurd ht (ho b)
  | reg => simp
  | regA => simp
  | symlink => simp

/-- A non-directory, non-`other` entry extracted with override onto a
path currently holding nothing or a non-directory simply (re)binds the
path to the entry's node. -/
theorem extractTarFile_overwrite (p : PathP) (e : TarEntry) (fs : Fs)
    (hnd : e.typeflag ≠ .dir) (hno : ∀ b, e.typeflag ≠ .other b)
    (hcur : lookupFs fs p = none ∨
      ∃ n, lookupFs fs p = some n ∧ n ≠ .dir) :
    extractTarFile p e false fs = .ok (setFs fs p (nodeOf e)) := by
  have hmat : ∀ fs2 : Fs, lookupFs fs2 p = none →
      matTar p e fs2 = .ok (setFs fs2 p (nodeOf e)) := by
    intro fs2 hl2
    unfold matTar createFile nodeOf
    cases ht : e.typeflag with
    | dir => exact absurd ht hnd
    | other b => exact absurd ht (hno b)
    | reg => rw [hl2]
    | regA => rw [hl2]
    | symlink => rw [hl2]
  unfold extractTarFile
  rcases hcur with hl | ⟨n, hl, hn⟩
  · rw [hl]
    rw [show existsNonDir none = false from rfl]
    simp only [Bool.false_eq_true, if_false]
    exact hmat fs hl
  · rw [hl]
    have hend : existsNonDir (some n) = true := by
      cases n with
      | dir => exact absurd rfl hn
      | file m c => rfl
      | symlink t => rfl
    rw [hend]
    simp only [if_true]
    rw [if_neg (by simp : ¬ (false = true))]
    rw [hmat (removeFs fs p) (lookupFs_removeFs_self fs p)]
    rw [setFs_removeFs]

/-- With an empty history the flat characterisation is the initial
filesystem itself. -/
theorem flatChar_nil (targetDir : String) (fs0 : Fs) (q : PathP) :
    flatChar targetDir fs0 [] q = lookupFs fs0 q := rfl

/-- When a last entry flattening to `q` exists, the characterisation is
that entry's node. -/
theorem flatChar_last (targetDir : String) (fs0 : Fs) (es : List TarEntry)
    (q : PathP) (e2 : TarEntry)
    (h : (es.filter (flatPred targetDir q)).getLast? = some e2) :
    flatChar targetDir fs0 es q = some (nodeOf e2) := by
  unfold flatChar
  rw [h]
  rfl

/-- When no entry flattens to `q`, the characterisation falls back to
the initial filesystem. -/
theorem flatChar_none (targetDir : String) (fs0 : Fs) (es : List TarEntry)
    (q : PathP)
    (h : (es.filter (flatPred targetDir q)).getLast? = none) :
    flatChar targetDir fs0 es q = lookupFs fs0 q := by
  unfold flatChar
  rw [h]
  rfl

/-- Extending the history by an entry that does not write `q` leaves
the characterisation at `q` unchanged. -/
theorem flatChar_append_skip (targetDir : String) (fs0 : Fs)
    (hist : List TarEntry) (e : TarEntry) (q : PathP)
    (h : flatPred targetDir q e = false) :
    flatChar targetDir fs0 (hist ++ [e]) q =
      flatChar targetDir fs0 hist q := by
  unfold flatChar
  rw [List.filter_append,
    show (([e] : List TarEntry).filter (flatPred targetDir q)) = [] from by
      simp [h],
    List.append_nil]

/-- Extending the history by an entry that writes `q` makes that entry
the characterisation at `q`. -/
theorem flatChar_append_hit (targetDir : String) (fs0 : Fs)
    (hist : List TarEntry) (e : TarEntry) (q : PathP)
    (h : flatPred targetDir q e = true) :
    flatChar targetDir fs0 (hist ++ [e]) q = some (nodeOf e) := by
  unfold flatChar
  rw [List.filter_append,
    show (([e] : List TarEntry).filter (flatPred targetDir q)) = [e] from by
      simp [h],
    List.getLast?_concat]
  rfl

/-- The flat-extraction loop invariant, relative to the ambient initial
filesystem `fs0`: when the current filesystem holds, at every path, the
last write of the already-processed entries — and whatever `fs0` held
there when no processed entry flattened to it — and no pending
non-directory entry's flattened target is occupied by a directory of
`fs0`, the loop runs to completion and the same characterisation
extends to the full history. -/
theorem unTarLoop_flat (targetDir : String) (fs0 : Fs) :
    ∀ (es hist : List TarEntry) (fs : Fs),
      (∀ e ∈ es, ∀ b, e.typeflag ≠ .other b) →
      (∀ e ∈ hist, ∀ b, e.typeflag ≠ .other b) →
      (∀ e ∈ es, e.typeflag ≠ .dir →
        lookupFs fs0 (unTarTarget targetDir ⟨true, [], false⟩ e) ≠
          some .dir) →
      (∀ q, lookupFs fs q = flatChar targetDir fs0 hist q) →
      (unTarLoop targetDir ⟨true, [], false⟩ [] es fs).2 = none ∧
      (∀ q, lookupFs (unTarLoop targetDir ⟨true, [], false⟩ [] es fs).1 q =
        flatChar targetDir fs0 (hist ++ es) q)
  | [], hist, fs, hgood, hhist, hnodir, hinv => by
    refine ⟨rfl, ?_⟩
    intro q
    rw [List.append_nil]
    exact hinv q
  | e :: rest, hist, fs, hgood, hhist, hnodir, hinv => by
    unfold unTarLoop
    rw [if_neg (fun hc => hc rfl)]
    by_cases hdir : e.typeflag = .dir
    · rw [if_pos ⟨rfl, hdir⟩]
      have hres := unTarLoop_flat targetDir fs0 rest (hist ++ [e]) fs
        (fun x hx => hgood x (List.mem_cons_of_mem _ hx))
        (fun x hx b => by
          rcases List.mem_append.mp hx with h' | h'
          · exact hhist x h' b
          · rw [List.mem_singleton.mp h']
            exact hgood e (List.mem_cons_self _ _) b)
        (fun x hx => hnodir x (List.mem_cons_of_mem _ hx))
        (fun q => by
          rw [flatChar_append_skip targetDir fs0 hist e q
            (by simp [flatPred, hdir])]
          exact hinv q)
      refine ⟨hres.1, ?_⟩
      intro q
      rw [show hist ++ e :: rest = (hist ++ [e]) ++ rest from
        List.append_cons hist e rest]
      exact hres.2 q
    · rw [if_neg (fun hc => hdir hc.2)]
      have hoth := hgood e (List.mem_cons_self _ _)
      have hcur : lookupFs fs (unTarTarget targetDir ⟨true, [], false⟩ e) =
          none ∨
          ∃ n, lookupFs fs (unTarTarget targetDir ⟨true, [], false⟩ e) =
            some n ∧ n ≠ .dir := by
        have hq := hinv (unTarTarget targetDir ⟨true, [], false⟩ e)
        cases hlast : (hist.filter (flatPred targetDir
            (unTarTarget targetDir ⟨true, [], false⟩ e))).getLast? with
        | none =>
          rw [flatChar_none targetDir fs0 hist _ hlast] at hq
          cases ho : lookupFs fs0 (unTarTarget targetDir ⟨true, [], false⟩ e)
            with
          | none => exact Or.inl (hq.trans ho)
          | some n =>
            refine Or.inr ⟨n, hq.trans ho, ?_⟩
            intro hn
            exact hnodir e (List.mem_cons_self _ _) hdir (by rw [ho, hn])
        | some e2 =>
          rw [flatChar_last targetDir fs0 hist _ e2 hlast] at hq
          refine Or.inr ⟨nodeOf e2, hq, ?_⟩
          have hmem := getLast?_mem_self _ _ hlast
          have hmf := List.mem_filter.mp hmem
          have hpred := hmf.2
          simp only [flatPred, Bool.and_eq_true, decide_eq_true_eq] at hpred
          exact nodeOf_ne_dir e2 hpred.1 (fun b => hhist e2 hmf.1 b)
      have hex := extractTarFile_overwrite
        (unTarTarget targetDir ⟨true, [], false⟩ e) e fs hdir hoth hcur
      rw [hex]
      have hres := unTarLoop_flat targetDir fs0 rest (hist ++ [e])
        (setFs fs (unTarTarget targetDir ⟨true, [], false⟩ e) (nodeOf e))
        (fun x hx => hgood x (List.mem_cons_of_mem _ hx))
        (fun x hx b => by
          rcases List.mem_append.mp hx with h' | h'
          · exact hhist x h' b
          · rw [List.mem_singleton.mp h']
            exact hoth b)
        (fun x hx => hnodir x (List.mem_cons_of_mem _ hx))
        (fun q => by
          by_cases hqq : q = unTarTarget targetDir ⟨true, [], false⟩ e
          · rw [hqq, lookupFs_setFs_self,
              flatChar_append_hit targetDir fs0 hist e _
                (by simp [flatPred, hdir])]
          · have hqt : unTarTarget targetDir ⟨true, [], false⟩ e ≠ q :=
              fun hc => hqq hc.symm
            rw [lookupFs_setFs_ne _ _ _ _ hqq,
              flatChar_append_skip targetDir fs0 hist e q
                (by simp [flatPred, hqt]),
              hinv q])
      refine ⟨hres.1, ?_⟩
      intro q
      rw [show hist ++ e :: rest = (hist ++ [e]) ++ rest from
        List.append_cons hist e rest]
      exact hres.2 q

/-- C6 (amended): extracting an archive with `FlatDir = true` — for
entries that are never the unhandled `other` kind and whose base names
are proper segments (not `"."`, `".."` or `"/"`) — over any initial
filesystem that holds the target directory and no directory at any
entry's flattened path succeeds, writes every non-directory entry
directly under the target root under only its base name, resolves
base-name collisions last-write-wins (each path holds the node of the
*last* archive entry flattening to it, and otherwise whatever it held
before), and materialises no directory that was not already present.
(An entry whose cleaned name is `".."` instead flattens to the target's
parent — an existing directory — and aborts the extraction with
`EISDIR`; see the counterexample.) -/
theorem flatdir_extraction (es : List TarEntry) (targetDir : String)
    (fs0 : Fs)
    (ht0 : targetDir ≠ "") (ht1 : dotdot ∉ (cleanParsed targetDir).2)
    (hgood : ∀ e ∈ es, (∀ b, e.typeflag ≠ .other b) ∧ flatName e ≠ "." ∧
      flatName e ≠ ".." ∧ flatName e ≠ "/")
    (htp0 : lookupFs fs0 (parsePath targetDir) = some .dir)
    (hnodir : ∀ e ∈ es, e.typeflag ≠ .dir →
      lookupFs fs0 (unTarTarget targetDir ⟨true, [], false⟩ e) ≠
        some .dir) :
    (unTar es targetDir ⟨true, [], false⟩ fs0).2 = none ∧
    (∀ e ∈ es, e.typeflag ≠ .dir →
      unTarTarget targetDir ⟨true, [], false⟩ e =
        (rootedB targetDir, (cleanParsed targetDir).2 ++ [(flatName e).data])) ∧
    (∀ q, lookupFs (unTar es targetDir ⟨true, [], false⟩ fs0).1 q =
      flatChar targetDir fs0 es q) ∧
    (∀ q, lookupFs (unTar es targetDir ⟨true, [], false⟩ fs0).1 q =
        some .dir →
      lookupFs fs0 q = some .dir) := by
  have hu : unTar es targetDir ⟨true, [], false⟩ fs0 =
      unTarLoop targetDir ⟨true, [], false⟩ [] es fs0 := by
    unfold unTar mkdirAllM
    rw [htp0]
    rfl
  have hres := unTarLoop_flat targetDir fs0 es [] fs0
    (fun e he b => (hgood e he).1 b) (by simp) hnodir
    (fun q => (flatChar_nil targetDir fs0 q).symm)
  have hchar : ∀ q, lookupFs (unTar es targetDir ⟨true, [], false⟩ fs0).1 q =
      flatChar targetDir fs0 es q := by
    intro q
    rw [hu]
    have h := hres.2 q
    rw [List.nil_append] at h
    exact h
  refine ⟨by rw [hu]; exact hres.1, ?_, hchar, ?_⟩
  · intro e he _
    obtain ⟨_, hf1, hf2, hf3⟩ := hgood e he
    exact unTarTarget_flat targetDir e ht0 ht1 hf1 hf2 hf3
  · intro q hq
    rw [hchar q] at hq
    cases hlast : (es.filter (flatPred targetDir q)).getLast? with
    | none =>
      rw [flatChar_none targetDir fs0 es q hlast] at hq
      exact hq
    | some e2 =>
      rw [flatChar_last targetDir fs0 es q e2 hlast] at hq
      have hmem := getLast?_mem_self _ _ hlast
      have hmf := List.mem_filter.mp hmem
      have hpred := hmf.2
      simp only [flatPred, Bool.and_eq_true, decide_eq_true_eq] at hpred
      have hnd := nodeOf_ne_dir e2 hpred.1 (hgood e2 hmf.1).1
      exact absurd (Option.some.inj hq) hnd

/-- Witness for `flatdir_extraction`: flattening `a/b.txt` into `out`
over a filesystem holding the target directory and its parent
succeeds. -/
theorem flatdir_extraction_w :
    (unTar [⟨"a/b.txt", .reg, 420, [1], ""⟩] "out" ⟨true, [], false⟩
      [(parsePath "out", .dir), ((false, []), .dir)]).2 = none :=
  (flatdir_extraction [⟨"a/b.txt", .reg, 420, [1], ""⟩] "out"
    [(parsePath "out", .dir), ((false, []), .dir)] (by decide) (by decide)
    (fun e he => by
      rw [List.mem_singleton.mp he]
      exact ⟨fun b h => TypeFlag.noConfusion h, by decide, by decide,
        by decide⟩)
    (by decide)
    (fun e he hd => by
      rw [List.mem_singleton.mp he]
      decide)).1

/-- C6 (counterexample): with `FlatDir = true`, the archive whose single
regular entry is named `".."` flattens to base name `".."`, so its
extraction path `path.Join("out", "..")` resolves to `"."` — the parent
of the target directory, an always-existing directory — and the file
creation (`os.Create`) fails with `EISDIR`: extraction aborts with an
error, the filesystem is left unchanged, and the entry is never written
directly under the target root as the claim promises of every
regular-file entry. -/
theorem flat_dotdot_aborts :
    (unTar [⟨"..", .reg, 420, [7], ""⟩] "out" ⟨true, [], false⟩
      [(parsePath "out", .dir), ((false, []), .dir)]).2 =
      some .eisdir ∧
    (unTar [⟨"..", .reg, 420, [7], ""⟩] "out" ⟨true, [], false⟩
      [(parsePath "out", .dir), ((false, []), .dir)]).1 =
      [(parsePath "out", .dir), ((false, []), .dir)] ∧
    unTarTarget "out" ⟨true, [], false⟩ ⟨"..", .reg, 420, [7], ""⟩ =
      ((false, []) : PathP) ∧
    ((false, []) : PathP) ≠ parsePath "out" ∧
    ((false, ([] : List Seg)) : PathP).2.take 1 ≠ (parsePath "out").2.take 1 :=
  ⟨rfl, rfl, rfl, by decide, by decide⟩

/-! ## C4 — compression detection never fails without an I/O failure -/

/-- C4 (counterexample): on a completely empty file the single
`file.Read(source)` returns `(0, io.EOF)` — end of file, not an I/O
failure — and `detectCompression` propagates that as an error instead of
answering `Uncompressed`, contradicting the claim that a short or empty
file yields `Uncompressed` without error. -/
theorem detectCompression_empty_file_errors :
    detectCompression [] = .error .eof := rfl

/-- C4 (amended): on every non-empty file whose read and seek succeed,
`detectCompression` never fails: it answers `Gzip` for a
`{0x1F,0x8B,0x08}` prefix, `Bzip2` for `{0x42,0x5A,0x68}`, and
`Uncompressed` in every other case, including files shorter than a
magic prefix.  (The empty file is the one exception: its read reports
`io.EOF` and detection returns that as an error.) -/
theorem detectCompression_classifies (contents : List Nat) (h : contents ≠ []) :
    detectCompression contents =
      .ok (if contents.take 3 = gzipMagic then Compression.gzip
           else if contents.take 3 = bzip2Magic then Compression.bzip2
           else Compression.uncompressed) := by
  match contents with
  | [] => exact absurd rfl h
  | [a] => simp [detectCompression, gzipMagic, bzip2Magic]
  | [a, b] => simp [detectCompression, gzipMagic, bzip2Magic]
  | a :: b :: c :: rest =>
    have hsrc : ((a :: b :: c :: rest).take 4 ++
        List.replicate (4 - min 4 (a :: b :: c :: rest).length) 0).take 3 =
        [a, b, c] := by
      simp [List.take_succ_cons]
    have hne1 : ¬ (bzip2Magic = gzipMagic) := by decide
    have hne2 : ¬ (gzipMagic = bzip2Magic) := by decide
    by_cases hbz : [a, b, c] = bzip2Magic
    · have hgz : ¬ [a, b, c] = gzipMagic := by rw [hbz]; decide
      simp [detectCompression, hsrc, hbz, hgz, hne1, List.take_succ_cons]
    · by_cases hgz : [a, b, c] = gzipMagic
      · simp [detectCompression, hsrc, hbz, hgz, hne2, List.take_succ_cons]
      · simp [detectCompression, hsrc, hbz, hgz, List.take_succ_cons]

/-- Witness for `detectCompression_classifies` at the bzip2 magic. -/
theorem detectCompression_classifies_w :
    detectCompression [0x42, 0x5A, 0x68] =
      .ok (if [(0x42 : Nat), 0x5A, 0x68].take 3 = gzipMagic then Compression.gzip
           else if [(0x42 : Nat), 0x5A, 0x68].take 3 = bzip2Magic then Compression.bzip2
           else Compression.uncompressed) :=
  detectCompression_classifies [0x42, 0x5A, 0x68] (by decide)

/-! ## C3 — filter matching -/

theorem agreeUpTo_iff (a : List String) : ∀ b : List String,
    (agreeUpTo a b = true ↔
      ∀ i, i < min a.length b.length → a.get? i = b.get? i) := by
  induction a with
  | nil => intro b; cases b <;> simp [agreeUpTo]
  | cons x xs ih =>
    intro b
    cases b with
    | nil => simp [agreeUpTo]
    | cons y ys =>
      have hmin : min (x :: xs).length (y :: ys).length =
          min xs.length ys.length + 1 := by
        simp [List.length_cons, Nat.succ_min_succ]
      simp only [agreeUpTo, Bool.and_eq_true, decide_eq_true_eq, ih ys]
      constructor
      · rintro ⟨hxy, hrec⟩ i hi
        cases i with
        | zero => simpa using hxy
        | succ j =>
          rw [hmin] at hi
          have hj : j < min xs.length ys.length := Nat.lt_of_succ_lt_succ hi
          simpa using hrec j hj
      · intro hall
        refine ⟨?_, fun j hj => ?_⟩
        · have h0 := hall 0 (by rw [hmin]; exact Nat.succ_pos _)
          simpa using h0
        · have hs := hall (j + 1) (by rw [hmin]; exact Nat.succ_lt_succ hj)
          simpa using hs

/-- C3: the prepared-filter match is exactly the specification's
segment-wise agreement — an empty filter list matches every path, and
otherwise some filter must agree with the path element-by-element up to
the shorter segment count (full-segment equality); in particular for the
filter list `["c/c2.txt"]` the path `"c"` matches and `"c/c1.txt"` does
not. -/
theorem optimizedMatches_spec :
    (∀ p fs, optimizedMatches p (prepareFilters fs) = true ↔
      (fs = [] ∨ ∃ f ∈ fs, ∀ i,
        i < min (goSplitStr p).length (goSplitStr f).length →
          (goSplitStr p).get? i = (goSplitStr f).get? i)) ∧
    optimizedMatches "c" (prepareFilters ["c/c2.txt"]) = true ∧
    optimizedMatches "c/c1.txt" (prepareFilters ["c/c2.txt"]) = false := by
  refine ⟨?_, by decide, by decide⟩
  intro p fs
  cases fs with
  | nil => simp [optimizedMatches, prepareFilters]
  | cons f0 ft =>
    simp [optimizedMatches, prepareFilters, List.any_map, List.any_eq_true,
      agreeUpTo_iff, Function.comp]

/-- Witness for `optimizedMatches_spec`: the empty filter list matches. -/
theorem optimizedMatches_spec_w :
    optimizedMatches "a" (prepareFilters []) = true :=
  (optimizedMatches_spec.1 "a" []).mpr (Or.inl rfl)

/-! ## C7 — single-entry read -/

theorem readTarLoop_ok (nm : String) (l : List TarEntry) :
    ∀ (e : TarEntry) (st : Option (List Nat)),
      readTarLoop nm l = .ok (e, st) →
      ∃ i, ∃ hi : i < l.length, l.get ⟨i, hi⟩ = e ∧
        nm = pathCleanStr e.name ∧
        (∀ y ∈ l.take i, nm ≠ pathCleanStr y.name) ∧
        st = (if isRegFlag e.typeflag then some e.content else none) := by
  induction l with
  | nil =>
    intro e st h
    simp [readTarLoop] at h
  | cons x rest ih =>
    intro e st h
    unfold readTarLoop at h
    by_cases hx : nm = pathCleanStr x.name
    · rw [if_pos hx] at h
      have hxe : x = e ∧
          st = (if isRegFlag x.typeflag then some x.content else none) := by
        cases hreg : isRegFlag x.typeflag <;> rw [hreg] at h <;> simp at h <;>
          exact ⟨h.1, h.2.symm⟩
      refine ⟨0, Nat.succ_pos _, ?_, ?_, by simp, ?_⟩
      · simpa using hxe.1
      · rw [← hxe.1]
        exact hx
      · rw [← hxe.1]
        exact hxe.2
    · rw [if_neg hx] at h
      obtain ⟨i, hi, hget, hnm, hprev, hst⟩ := ih e st h
      refine ⟨i + 1, Nat.succ_lt_succ hi, ?_, hnm, ?_, hst⟩
      · simpa using hget
      · intro y hy
        rw [List.take_succ_cons] at hy
        rcases List.mem_cons.mp hy with hyx | hy2
        · rw [hyx]
          exact hx
        · exact hprev y hy2

theorem readTarLoop_none (nm : String) :
    ∀ l : List TarEntry, (∀ y ∈ l, nm ≠ pathCleanStr y.name) →
      readTarLoop nm l = .error .notExist
  | [], _ => rfl
  | x :: rest, hall => by
    unfold readTarLoop
    rw [if_neg (hall x (by simp))]
    exact readTarLoop_none nm rest (fun y hy => hall y (List.mem_cons_of_mem _ hy))

/-- C7: `ReadTar` scans in archive order and stops at the first entry
whose cleaned name equals the cleaned requested name, returning the
entry with its content stream when it is a regular file and with no
stream (and no error) otherwise — in particular for a directory; when
no entry matches it fails with `os.ErrNotExist`, which is distinct from
`io.EOF` (the normal end-of-iteration signal) and from I/O errors. -/
theorem readTar_spec (entries : List TarEntry) (fileName : String) :
    (∀ e st, readTar entries fileName = .ok (e, st) →
      ∃ i, ∃ hi : i < entries.length, entries.get ⟨i, hi⟩ = e ∧
        pathCleanStr fileName = pathCleanStr e.name ∧
        (∀ y ∈ entries.take i,
          pathCleanStr fileName ≠ pathCleanStr y.name) ∧
        st = (if isRegFlag e.typeflag then some e.content else none)) ∧
    ((∀ y ∈ entries, pathCleanStr fileName ≠ pathCleanStr y.name) →
      readTar entries fileName = .error .notExist) ∧
    GoError.notExist ≠ GoError.eof ∧
    (∀ n, GoError.notExist ≠ GoError.ioErr n) :=
  ⟨fun e st h => readTarLoop_ok _ entries e st h,
   fun hall => readTarLoop_none _ entries hall,
   by decide,
   fun _ h => GoError.noConfusion h⟩

/-- Witness for `readTar_spec`: the empty archive yields `NotFound`. -/
theorem readTar_spec_w : readTar [] "x" = .error .notExist :=
  (readTar_spec [] "x").2.1 (by simp)

/-! ## C5 — noOverride never touches an existing file -/

theorem matTar_preserves_other (p q : PathP) (hdr : TarEntry) (fs fs2 : Fs)
    (hne : q ≠ p) (h : matTar p hdr fs = .ok fs2) :
    lookupFs fs2 q = lookupFs fs q := by
  unfold matTar at h
  cases ht : hdr.typeflag <;> rw [ht] at h
  case dir =>
    cases hl : lookupFs fs p <;> rw [hl] at h <;> simp at h <;> rw [← h]
    exact lookupFs_setFs_ne fs p q .dir hne
  case reg =>
    unfold createFile at h
    rcases hl : lookupFs fs p with _ | n
    · rw [hl] at h
      simp at h
      rw [← h]
      exact lookupFs_setFs_ne fs p q _ hne
    · cases n <;> rw [hl] at h <;> simp at h <;> rw [← h] <;>
        exact lookupFs_setFs_ne fs p q _ hne
  case regA =>
    unfold createFile at h
    rcases hl : lookupFs fs p with _ | n
    · rw [hl] at h
      simp at h
      rw [← h]
      exact lookupFs_setFs_ne fs p q _ hne
    · cases n <;> rw [hl] at h <;> simp at h <;> rw [← h] <;>
        exact lookupFs_setFs_ne fs p q _ hne
  case symlink =>
    cases hl : lookupFs fs p <;> rw [hl] at h <;> simp at h
    rw [← h]
    exact lookupFs_setFs_ne fs p q _ hne
  case other b =>
    simp at h

theorem extractTarFile_preserves_other (p q : PathP) (hdr : TarEntry)
    (no : Bool) (fs fs2 : Fs) (hne : q ≠ p)
    (h : extractTarFile p hdr no fs = .ok fs2) :
    lookupFs fs2 q = lookupFs fs q := by
  unfold extractTarFile at h
  by_cases hnd : existsNonDir (lookupFs fs p) = true
  · rw [if_pos hnd] at h
    cases hno : no
    · rw [hno] at h
      simp only [Bool.false_eq_true, if_false] at h
      rw [matTar_preserves_other p q hdr _ fs2 hne h]
      exact lookupFs_removeFs_ne fs p q hne
    · rw [hno] at h
      simp only [if_true] at h
      simp at h
      rw [← h]
  · rw [if_neg hnd] at h
    exact matTar_preserves_other p q hdr fs fs2 hne h

theorem extractTarFile_noOverride_skip (p : PathP) (hdr : TarEntry) (fs : Fs)
    (h : existsNonDir (lookupFs fs p) = true) :
    extractTarFile p hdr true fs = .ok fs := by
  unfold extractTarFile
  rw [if_pos h]
  simp

theorem extractTarFile_noOverride_keeps_file (p q : PathP) (hdr : TarEntry)
    (fs fs2 : Fs) (m : Nat) (c : List Nat)
    (hq : lookupFs fs q = some (.file m c))
    (h : extractTarFile p hdr true fs = .ok fs2) :
    lookupFs fs2 q = some (.file m c) := by
  by_cases hpq : q = p
  · subst hpq
    have hnd : existsNonDir (lookupFs fs q) = true := by rw [hq]; rfl
    rw [extractTarFile_noOverride_skip q hdr fs hnd] at h
    simp at h
    rw [← h]
    exact hq
  · rw [extractTarFile_preserves_other p q hdr true fs fs2 hpq h]
    exact hq

theorem unTarLoop_noOverride_keeps (targetDir : String) (opts : UnTarOptions)
    (filters : List (List String)) (hno : opts.noOverride = true) :
    ∀ (entries : List TarEntry) (fs : Fs) (p : PathP) (m : Nat) (c : List Nat),
      lookupFs fs p = some (.file m c) →
      lookupFs (unTarLoop targetDir opts filters entries fs).1 p =
        some (.file m c)
  | [], _, _, _, _, hp => hp
  | e :: rest, fs, p, m, c, hp => by
    unfold unTarLoop
    by_cases h1 : ¬ optimizedMatches (pathCleanStr e.name) filters = true
    · rw [if_pos h1]
      exact unTarLoop_noOverride_keeps targetDir opts filters hno rest fs p m c hp
    · rw [if_neg h1]
      by_cases h2 : opts.flatDir = true ∧ e.typeflag = .dir
      · rw [if_pos h2]
        exact unTarLoop_noOverride_keeps targetDir opts filters hno rest fs p m c hp
      · rw [if_neg h2, hno]
        cases hex : extractTarFile (unTarTarget targetDir opts e) e true fs with
        | error err => exact hp
        | ok fs2 =>
          have hp2 := extractTarFile_noOverride_keeps_file _ p e fs fs2 m c hp hex
          exact unTarLoop_noOverride_keeps targetDir opts filters hno rest fs2 p m c hp2

/-- C5: with `noOverride = true` a pre-existing non-directory file at a
destination path survives the whole extraction run with its mode and
content intact, even when the archive holds an entry extracting to that
path; the conflicting entry is skipped per-entry (`extractTarFile`
returns success without touching the filesystem) rather than aborting
the run. -/
theorem noOverride_preserves :
    (∀ (p : PathP) (hdr : TarEntry) (fs : Fs),
      existsNonDir (lookupFs fs p) = true →
      extractTarFile p hdr true fs = .ok fs) ∧
    (∀ (entries : List TarEntry) (targetDir : String) (flat : Bool)
      (fl : List String) (fs : Fs) (p : PathP) (m : Nat) (c : List Nat),
      lookupFs fs p = some (.file m c) →
      lookupFs (unTar entries targetDir ⟨flat, fl, true⟩ fs).1 p =
        some (.file m c)) := by
  constructor
  · exact fun p hdr fs h => extractTarFile_noOverride_skip p hdr fs h
  · intro entries targetDir flat fl fs p m c hp
    unfold unTar
    cases hm : mkdirAllM fs (parsePath targetDir) with
    | error e => exact hp
    | ok fs1 =>
      have hp1 : lookupFs fs1 p = some (.file m c) := by
        unfold mkdirAllM at hm
        rcases hl : lookupFs fs (parsePath targetDir) with _ | n
        · rw [hl] at hm
          simp at hm
          have hne : p ≠ parsePath targetDir := by
            intro he
            rw [he, hl] at hp
            exact Option.noConfusion hp
          rw [← hm]
          rw [lookupFs_setFs_ne fs (parsePath targetDir) p .dir hne]
          exact hp
        · rw [hl] at hm
          cases n
          · simp at hm
            rw [← hm]
            exact hp
          · simp at hm
          · simp at hm
      exact unTarLoop_noOverride_keeps targetDir ⟨flat, fl, true⟩
        (prepareFilters fl) rfl entries fs1 p m c hp1

/-- Witness for `noOverride_preserves`: an archive entry `a.txt` with
content `[1]` does not replace the existing `out/a.txt` with content
`[9]`. -/
theorem noOverride_preserves_w :
    lookupFs (unTar [⟨"a.txt", .reg, 420, [1], ""⟩] "out" ⟨false, [], true⟩
      [(parsePath "out/a.txt", .file 7 [9]), (parsePath "out", .dir)]).1
      (parsePath "out/a.txt") = some (.file 7 [9]) :=
  noOverride_preserves.2 [⟨"a.txt", .reg, 420, [1], ""⟩] "out" false []
    [(parsePath "out/a.txt", .file 7 [9]), (parsePath "out", .dir)]
    (parsePath "out/a.txt") 7 [9] (by decide)

/-! ## C2 — append rejection -/

/-- C2 (amended, tar side): requesting append on an existing gzip- or
bzip2-compressed tar archive fails with `ErrAppendNotSupported` and the
archive bytes on disk are untouched — `openTarFile` only reads the
magic and seeks before rejecting. -/
theorem tar_append_compressed_rejected (env : WalkEnv) (d : Disk)
    (name : String) (opts : TarOptions) (bytes : List Nat) (comp : Compression)
    (hstat : env.statResult = .ok ())
    (happ : opts.append = true)
    (hb : lookupD d name = some bytes)
    (hdet : detectCompression bytes = .ok comp)
    (hcomp : comp ≠ .uncompressed) :
    tarM env d name opts = (some .appendNotSupported, d) := by
  simp [tarM, hstat, happ, hb, hdet, hcomp]

/-- Witness for `tar_append_compressed_rejected` on a gzip archive. -/
theorem tar_append_compressed_rejected_w :
    tarM ⟨.ok (), [], none⟩ [("t.tgz", [0x1F, 0x8B, 0x08, 0])] "t.tgz"
        ⟨true, .uncompressed, false, []⟩ =
      (some .appendNotSupported, [("t.tgz", [0x1F, 0x8B, 0x08, 0])]) :=
  tar_append_compressed_rejected _ _ _ _ [0x1F, 0x8B, 0x08, 0] .gzip
    rfl rfl rfl rfl (by decide)

/-- C2 (counterexample, zip side): `Zip` never reads its `Append`
option.  Called with `Append = true` on an existing zip archive it does
not fail with `AppendNotSupported` (it reports no error at all), and
`createZipFile`'s `os.Create` replaces the original archive bytes. -/
theorem zip_append_option_ignored :
    (zipM ⟨.ok (), [], none⟩ [("a.zip", [9, 9, 9])] "a.zip"
        ⟨true, false, []⟩).1 = none ∧
    (none : Option GoError) ≠ some .appendNotSupported ∧
    (zipM ⟨.ok (), [], none⟩ [("a.zip", [9, 9, 9])] "a.zip"
        ⟨true, false, []⟩).2 = [("a.zip", zipBytes [])] ∧
    zipBytes [] ≠ [9, 9, 9] :=
  ⟨rfl, by decide, rfl, by decide⟩

/-! ## C9 — tar append seeks over the end marker -/

theorem parseTar_body (es : List TarEntry) (rest : List Block) :
    parseTar (tarBody es ++ Block.zero :: rest) = es := by
  induction es with
  | nil => simp [tarBody, parseTar]
  | cons e tl ih =>
    cases hf : isRegFlag e.typeflag <;>
      simp [tarBody, entryBlocks, hf, parseTar, ih]

theorem tarBody_append (xs ys : List TarEntry) :
    tarBody (xs ++ ys) = tarBody xs ++ tarBody ys := by
  induction xs with
  | nil => simp [tarBody]
  | cons e tl ih => simp [tarBody, ih]

/-- C9: the append path seeks exactly `-2<<9 = 1024 = 2·512` bytes (two
blocks, the tar end-of-archive marker) back from the end of the file and
writes the new entries from there, with a fresh end marker on close;
listing the resulting archive yields the original entries followed by
the appended ones. -/
theorem tar_append_then_list (es newEs : List TarEntry) :
    appendSeekBack = 2 * 512 ∧
    parseTar (tarAppendFile (serializeTar es) newEs) = es ++ newEs := by
  refine ⟨by decide, ?_⟩
  have h2 : appendSeekBack / 512 = 2 := by decide
  have hlen : (serializeTar es).length - appendSeekBack / 512 =
      (tarBody es).length := by
    rw [h2]
    simp [serializeTar]
  rw [tarAppendFile, hlen, serializeTar]
  rw [List.take_left]
  rw [← tarBody_append]
  exact parseTar_body (es ++ newEs) [Block.zero]

/-! ## C8 — failed archive creation leaves no partial file -/

/-- C8: when `Tar` in create (non-append) mode returns an error —
whether from the source stat, the compression check, or the walk — the
disk either is exactly as it was (the failure came before `os.Create`)
or no longer has a file at the archive name (the deferred
`closeTarFile` removed the partial file). -/
theorem tar_create_failure_removes (env : WalkEnv) (d : Disk) (name : String)
    (opts : TarOptions) (e : GoError)
    (hna : opts.append = false)
    (hres : (tarM env d name opts).1 = some e) :
    (tarM env d name opts).2 = d ∨
      lookupD (tarM env d name opts).2 name = none := by
  unfold tarM at hres ⊢
  cases hsr : env.statResult with
  | error e2 => exact Or.inl rfl
  | ok u =>
    by_cases hbz : opts.compression = .bzip2
    · left
      simp [hna, hbz]
    · cases hw : env.walkErr with
      | none => simp [hna, hbz, hw, hsr] at hres
      | some e2 =>
        refine Or.inr ?_
        simp only [hna, hbz, hw, Bool.false_eq_true, if_false]
        rw [lookupD_removeD_self]

/-- Witness for `tar_create_failure_removes`: a walk failure while
writing a fresh archive. -/
theorem tar_create_failure_removes_w :
    (tarM ⟨.ok (), [], some (.ioErr 3)⟩ [] "n.tar"
        ⟨false, .uncompressed, false, []⟩).2 = [] ∨
      lookupD (tarM ⟨.ok (), [], some (.ioErr 3)⟩ [] "n.tar"
        ⟨false, .uncompressed, false, []⟩).2 "n.tar" = none :=
  tar_create_failure_removes _ _ _ _ (.ioErr 3) rfl rfl

/-! ## C10 — a failed append deletes the whole original archive -/

/-- C10: with `Append = true` on a valid uncompressed tar archive, any
walk failure makes the deferred `closeTarFile(tarFile, err != nil)`
remove the archive file itself — the entire pre-existing archive is
deleted from disk, not just the appended portion. -/
theorem tar_append_failure_destroys (env : WalkEnv) (d : Disk) (name : String)
    (opts : TarOptions) (bytes : List Nat) (e : GoError)
    (hstat : env.statResult = .ok ())
    (happ : opts.append = true)
    (hb : lookupD d name = some bytes)
    (hdet : detectCompression bytes = .ok .uncompressed)
    (hlen : appendSeekBack ≤ bytes.length)
    (hwalk : env.walkErr = some e) :
    (tarM env d name opts).1 = some e ∧
    lookupD (tarM env d name opts).2 name = none := by
  have hnl : ¬ bytes.length < appendSeekBack := Nat.not_lt.mpr hlen
  constructor
  · simp [tarM, hstat, happ, hb, hdet, hnl, hwalk]
  · have h2 : (tarM env d name opts).2 =
        removeD (setD d name (bytes.take (bytes.length - appendSeekBack) ++
          tarBodyBytes env.written ++ endMarkerBytes)) name := by
      simp [tarM, hstat, happ, hb, hdet, hnl, hwalk]
    rw [h2, lookupD_removeD_self]

/-- Witness for `tar_append_failure_destroys`: an empty uncompressed
tar archive (1024 zero bytes) destroyed by a failed append. -/
theorem tar_append_failure_destroys_w :
    (tarM ⟨.ok (), [], some (.ioErr 7)⟩ [("t.tar", List.replicate 1024 0)]
        "t.tar" ⟨true, .uncompressed, false, []⟩).1 = some (.ioErr 7) ∧
    lookupD (tarM ⟨.ok (), [], some (.ioErr 7)⟩
        [("t.tar", List.replicate 1024 0)] "t.tar"
        ⟨true, .uncompressed, false, []⟩).2 "t.tar" = none :=
  tar_append_failure_destroys _ _ _ _ (List.replicate 1024 0) (.ioErr 7)
    rfl rfl rfl rfl (by rw [List.length_replicate]; decide) rfl

/-! ## Sanity checks

Concrete evaluations confirming the path embedding matches the Go
library behaviour. -/

example : filepathRel "c" "c/c2.txt" = some "c2.txt" := by decide
example : filepathRel "c" "d/evil" = some "../d/evil" := by decide
example : filepathRel "." "../evil" = some "../evil" := by decide
example : filepathRel "." "/abs" = none := by decide
example : filepathRel ".." "a" = none := by decide
example : pathJoin "out" "../evil" = "evil" := by decide
example : pathJoin "out" "c/c2.txt" = "out/c/c2.txt" := by decide
example : pathBaseStr "c/c2.txt" = "c2.txt" := by decide
example : pathBaseStr ".." = ".." := by decide
example : pathBaseStr "//" = "/" := by decide
example : goHasPfx "../d/evil" ".." = true := by decide
example : goHasPfx "..evil" ".." = true := by decide
example : optimizedMatches "c" (prepareFilters ["c/c2.txt"]) = true := by decide
example : optimizedMatches "c/c1.txt" (prepareFilters ["c/c2.txt"]) = false := by decide
example : pathCleanStr "out/../evil" = "evil" := by decide
example : pathCleanStr "a/b/../c/" = "a/c" := by decide
example : pathCleanStr "" = "." := by decide
example : pathCleanStr "/../a" = "/a" := by decide
example : detectCompression [] = .error .eof := rfl
example : detectCompression [0x1F, 0x8B, 0x08, 0] = .ok .gzip := rfl
example : detectCompression [0x1F, 0x8B] = .ok .uncompressed := rfl
example : detectCompression [0x42, 0x5A, 0x68] = .ok .bzip2 := rfl
example : detectCompression [7] = .ok .uncompressed := rfl
example : parseTar (serializeTar [⟨"a", .reg, 420, [1], ""⟩]) =
    [⟨"a", .reg, 420, [1], ""⟩] := rfl
example :
    parseTar (tarAppendFile (serializeTar [⟨"a", .dir, 0, [], ""⟩])
      [⟨"b", .reg, 420, [2], ""⟩]) =
    [⟨"a", .dir, 0, [], ""⟩, ⟨"b", .reg, 420, [2], ""⟩] := rfl

end Tarx
